import Mathlib

/-!
Verification development for the IRIS claim-extraction and synthesis core
(`backend/app/agents/analysis_agent.py` and `backend/app/agents/synthesis_agent.py`).

The Python code is shallowly embedded: Python/JSON values are modelled by the
inductive type `J` (rationals stand in for Python floats), fallible Python code
returns `Except`/`Option`, and each embedded definition mirrors one Python
function, named after it.  Generation-capability calls (Gemini) are modelled by
an explicit behaviour parameter: the capability is absent, raises, or returns a
raw text, exactly the observable interface the agents consume.
-/

namespace IRIS

/-- JSON-like Python values (dict/list/str/float/bool/None).  Numbers are
modelled by rationals. -/
inductive J where
| null
| bool (b : Bool)
| num (q : ℚ)
| str (s : String)
| arr (xs : List J)
| obj (kvs : List (String × J))
deriving Repr


/-- The left-brace character, kept out of literals. -/
def lbrace : Char := Char.ofNat 123

/-- The right-brace character, kept out of literals. -/
def rbrace : Char := Char.ofNat 125

/-- Python `str.isspace`-style whitespace characters relevant to `str.strip()`. -/
def pyIsWs (c : Char) : Bool :=
  c = ' ' || c = '\t' || c = '\n' || c = '\r' || c = '\x0b' || c = '\x0c'

/-- Python `str.strip()` on a character list. -/
def stripChars (cs : List Char) : List Char :=
  ((cs.dropWhile pyIsWs).reverse.dropWhile pyIsWs).reverse

/-- Python `str.strip()`. -/
def pyStrip (s : String) : String :=
  String.mk (stripChars s.data)

/-- Python `str.lower()` (ASCII case fold, as used on the agent inputs). -/
def pyLower (s : String) : String :=
  String.mk (s.data.map Char.toLower)

/-- Whether `p` occurs at the head of `cs`. -/
def headIsSub (p cs : List Char) : Bool :=
  List.isPrefixOf p cs

/-- First index at which the pattern `p` occurs in `cs` (Python `str.find`,
restricted to found/not-found). -/
def findSubAux (p cs : List Char) (i : Nat) : Option Nat :=
  match cs with
  | [] => if p = [] then some i else none
  | _ :: rest => if headIsSub p cs then some i else findSubAux p rest (i + 1)

/-- Python `text.find(p)` returning `none` for `-1`. -/
def findSub (s p : String) : Option Nat :=
  findSubAux p.data s.data 0

/-- Python `p in s` substring test. -/
def containsSub (s p : String) : Bool :=
  (findSub s p).isSome

/-- Take the first `n` characters (Python slicing `s[:n]`). -/
def takeChars (n : Nat) (s : String) : String :=
  String.mk (s.data.take n)

/-- Python slice `s[a:b]` with the usual clamping. -/
def sliceChars (s : String) (a b : Nat) : String :=
  String.mk ((s.data.drop a).take (b - a))

/-! Rational arithmetic via `mkRat`, which (unlike the `@[irreducible]`
field operations on `ℚ`) evaluates inside the kernel, so that concrete runs of
the embedded agents can be checked by `decide`/`rfl`.  Each operation is proved
equal to the corresponding field operation further below. -/

/-- Kernel-evaluable addition on `ℚ`. -/
def qAdd (a b : ℚ) : ℚ :=
  mkRat (a.num * b.den + b.num * a.den) (a.den * b.den)

/-- Kernel-evaluable subtraction on `ℚ`. -/
def qSub (a b : ℚ) : ℚ :=
  mkRat (a.num * b.den - b.num * a.den) (a.den * b.den)

/-- Kernel-evaluable multiplication on `ℚ`. -/
def qMul (a b : ℚ) : ℚ :=
  mkRat (a.num * b.num) (a.den * b.den)

/-- Kernel-evaluable division on `ℚ` (0 on a zero divisor, which the embedded
code never feeds it: every division in the agents is guarded by a nonempty
list or a constant divisor). -/
def qDiv (a b : ℚ) : ℚ :=
  mkRat (a.num * b.den * b.num.sign) (a.den * b.num.natAbs)

/-- Python truthiness of a `J` value. -/
def pyTruthy : J → Bool
| J.null => false
| J.bool b => b
| J.num q => q ≠ 0
| J.str s => s ≠ ""
| J.arr xs => ¬ xs.isEmpty
| J.obj kvs => ¬ kvs.isEmpty

/-- Numeric view shared by Python bools and numbers (`True == 1`). -/
def jAsNum : J → Option ℚ
| J.bool b => some (if b then 1 else 0)
| J.num q => some q
| _ => none

mutual
/-- Python `==` on embedded values.  Bools compare equal to their numeric
value and lists compare elementwise, as in Python.  Dicts compare entrywise in
insertion order — the one simplification against Python's unordered dict
equality; the agents only ever apply `==` to dicts they never construct with
reordered keys. -/
def pyEq : J → J → Bool
| J.null, J.null => true
| J.str x, J.str y => x = y
| J.arr xs, J.arr ys => pyEqL xs ys
| J.obj xs, J.obj ys => pyEqO xs ys
| x, y =>
  match jAsNum x, jAsNum y with
  | some q, some r => q = r
  | _, _ => false

/-- Elementwise Python `==` on lists. -/
def pyEqL : List J → List J → Bool
| [], [] => true
| x :: xs, y :: ys => pyEq x y && pyEqL xs ys
| _, _ => false

/-- Entrywise Python `==` on dict association lists. -/
def pyEqO : List (String × J) → List (String × J) → Bool
| [], [] => true
| (k, v) :: xs, (k2, v2) :: ys => k = k2 && pyEq v v2 && pyEqO xs ys
| _, _ => false
end

/-- Python hashability: lists and dicts are unhashable. -/
def jHashable : J → Bool
| J.arr _ => false
| J.obj _ => false
| _ => true

/-- Three-way comparison of character lists by code point (Python string
order). -/
def charsCmp : List Char → List Char → Ordering
| [], [] => .eq
| [], _ :: _ => .lt
| _ :: _, [] => .gt
| x :: xs, y :: ys =>
  if x.toNat < y.toNat then .lt
  else if y.toNat < x.toNat then .gt
  else charsCmp xs ys

/-- Three-way comparison of strings by code point. -/
def strCmp (a b : String) : Ordering :=
  charsCmp a.data b.data

mutual
/-- Python three-way comparison where defined; `none` models a `TypeError`
(mixed kinds, `None`, dicts).  Bools order with numbers as 0/1; strings order
by code points; lists order lexicographically. -/
def pyCmp : J → J → Option Ordering
| J.str x, J.str y => some (strCmp x y)
| J.arr xs, J.arr ys => pyCmpL xs ys
| x, y =>
  match jAsNum x, jAsNum y with
  | some q, some r => some (if q < r then .lt else if r < q then .gt else .eq)
  | _, _ => none

/-- Lexicographic list comparison with Python error propagation. -/
def pyCmpL : List J → List J → Option Ordering
| [], [] => some .eq
| [], _ :: _ => some .lt
| _ :: _, [] => some .gt
| x :: xs, y :: ys =>
  match pyCmp x y with
  | none => none
  | some .lt => some .lt
  | some .gt => some .gt
  | some .eq => pyCmpL xs ys
end

/-- Python comparison `a < b`; `none` models a `TypeError`. -/
def pyLt (a b : J) : Option Bool :=
  (pyCmp a b).map (fun o => o = Ordering.lt)

/-- Insert into a sorted list using Python `<`; `none` on a `TypeError`. -/
def pyInsertSorted (x : J) : List J → Option (List J)
| [] => some [x]
| y :: ys =>
  match pyLt x y with
  | none => none
  | some true => some (x :: y :: ys)
  | some false =>
    match pyInsertSorted x ys with
    | none => none
    | some zs => some (y :: zs)

/-- Python `sorted(xs)`; `none` models the `TypeError` raised on uncomparable
elements. -/
def pySorted : List J → Option (List J)
| [] => some []
| x :: xs =>
  match pySorted xs with
  | none => none
  | some ys => pyInsertSorted x ys

/-- Fuel-bounded core of `pyFromKeys`. -/
def pyFromKeysF : Nat → List J → Option (List J)
| _, [] => some []
| 0, _ :: _ => none
| fuel + 1, x :: xs =>
  if jHashable x then
    match pyFromKeysF fuel (xs.filter (fun y => ¬ pyEq x y)) with
    | none => none
    | some ys => some (x :: ys)
  else none

/-- Python `list(dict.fromkeys(xs))`: order-preserving dedup by `==`;
`none` models the `TypeError` raised on unhashable elements.  (The fuel
`xs.length` is always adequate since each step strictly shrinks the list.) -/
def pyFromKeys (xs : List J) : Option (List J) :=
  pyFromKeysF xs.length xs

mutual
/-- Python `str()` of an embedded value.  Only equality of these strings is
ever used (dedup keys), so the number rendering is a canonical stand-in for
float repr. -/
def pyStr : J → String
| J.null => "None"
| J.bool b => if b then "True" else "False"
| J.num q => if q.den = 1 then toString q.num ++ ".0" else toString q.num ++ "/" ++ toString q.den
| J.str s => s
| J.arr xs => "[" ++ pyStrL xs ++ "]"
| J.obj kvs => String.mk [lbrace] ++ pyStrO kvs ++ String.mk [rbrace]

/-- Comma-joined `repr` of list elements (strings gain quotes, as in Python). -/
def pyStrL : List J → String
| [] => ""
| [J.str s] => "\x27" ++ s ++ "\x27"
| [x] => pyStr x
| J.str s :: xs => "\x27" ++ s ++ "\x27" ++ ", " ++ pyStrL xs
| x :: xs => pyStr x ++ ", " ++ pyStrL xs

/-- Comma-joined `repr` of dict entries. -/
def pyStrO : List (String × J) → String
| [] => ""
| [(k, J.str s)] => "\x27" ++ k ++ "\x27: " ++ "\x27" ++ s ++ "\x27"
| [(k, v)] => "\x27" ++ k ++ "\x27: " ++ pyStr v
| (k, J.str s) :: kvs => "\x27" ++ k ++ "\x27: " ++ "\x27" ++ s ++ "\x27" ++ ", " ++ pyStrO kvs
| (k, v) :: kvs => "\x27" ++ k ++ "\x27: " ++ pyStr v ++ ", " ++ pyStrO kvs
end

/-- Dict lookup `d.get(k)` on an object association list (first match). -/
def jGet : J → String → Option J
| J.obj kvs, k => (kvs.find? (fun kv => kv.1 = k)).map Prod.snd
| _, _ => none

/-- Dict lookup with default, `d.get(k, dflt)`. -/
def jGetD (v : J) (k : String) (dflt : J) : J :=
  (jGet v k).getD dflt

/-- `d.setdefault(k, dflt)` on an object: insert only when the key is absent. -/
def jSetDefault (kvs : List (String × J)) (k : String) (dflt : J) : List (String × J) :=
  if (kvs.find? (fun kv => kv.1 = k)).isSome then kvs else kvs ++ [(k, dflt)]

/-- `d[k] = v` on an object association list (replace or append). -/
def jSet (kvs : List (String × J)) (k : String) (v : J) : List (String × J) :=
  if (kvs.find? (fun kv => kv.1 = k)).isSome then
    kvs.map (fun kv => if kv.1 = k then (k, v) else kv)
  else kvs ++ [(k, v)]

/-- Round-half-to-even at integer precision (Python `round`), computed on the
numerator and denominator so the kernel can evaluate it. -/
def halfEvenZ (x : ℚ) : ℤ :=
  let n := x.num
  let d : ℤ := (x.den : ℤ)
  let k := Int.fdiv n d
  let twice := 2 * (n - k * d)
  if twice < d then k
  else if d < twice then k + 1
  else if k % 2 = 0 then k else k + 1

/-- Python `round(x, 3)`. -/
def round3 (x : ℚ) : ℚ :=
  mkRat (halfEvenZ (qMul x (mkRat 1000 1))) 1000

/-- Decimal digits to a natural number. -/
def digitsToNat (cs : List Char) : Nat :=
  cs.foldl (fun n c => n * 10 + (c.toNat - 48)) 0

/-- The rational denoted by a sign, integer digits and fraction digits. -/
def decSigned (neg : Bool) (intPart fracPart : List Char) : ℚ :=
  mkRat ((if neg then -1 else 1) * (digitsToNat (intPart ++ fracPart) : ℤ)) (10 ^ fracPart.length)

/-- Scale a value by `10 ^ e` or `10 ^ (-e)`. -/
def applyExp10 (v : ℚ) (eneg : Bool) (e : Nat) : ℚ :=
  if eneg then qDiv v (mkRat (10 ^ e) 1) else qMul v (mkRat (10 ^ e) 1)

/-- Parse a decimal float literal the way Python `float(str)` does on the
plain-number fragment (optional sign, digits, fraction, exponent); `none`
models `ValueError`. -/
def pyFloatOfString (s : String) : Option ℚ :=
  let cs := stripChars s.data
  let (neg, cs) :=
    match cs with
    | '-' :: rest => (true, rest)
    | '+' :: rest => (false, rest)
    | _ => (false, cs)
  let intPart := cs.takeWhile Char.isDigit
  let cs := cs.dropWhile Char.isDigit
  let (fracPart, cs) :=
    match cs with
    | '.' :: rest => (rest.takeWhile Char.isDigit, rest.dropWhile Char.isDigit)
    | _ => ([], cs)
  if intPart = [] ∧ fracPart = [] then none
  else
    let v := decSigned neg intPart fracPart
    match cs with
    | [] => some v
    | e :: rest =>
      if e = 'e' ∨ e = 'E' then
        let (eneg, rest) :=
          match rest with
          | '-' :: r => (true, r)
          | '+' :: r => (false, r)
          | _ => (false, rest)
        let eds := rest.takeWhile Char.isDigit
        if eds = [] ∨ rest.dropWhile Char.isDigit ≠ [] then none
        else some (applyExp10 v eneg (digitsToNat eds))
      else none

/-- Python `float(v)` on an embedded value; `none` models the `TypeError` /
`ValueError` raised on `None`, lists, dicts and unparseable strings. -/
def pyFloatJ : J → Option ℚ
| J.num q => some q
| J.bool b => some (if b then 1 else 0)
| J.str s => pyFloatOfString s
| _ => none

/-! ## JSON parsing (`json.loads`)

A strict recursive-descent parser for the JSON accepted by Python `json.loads`
on the agents' model outputs: objects, arrays, strings with the standard
escapes, numbers, `true`/`false`/`null`.  Trailing commas and bare prose are
rejected, as in the stdlib parser. -/

/-- Skip JSON whitespace. -/
def skipWs (cs : List Char) : List Char :=
  cs.dropWhile (fun c => c = ' ' || c = '\t' || c = '\n' || c = '\r')

/-- Parse the body of a JSON string after the opening quote. -/
def parseJString : Nat → List Char → Option (String × List Char)
| 0, _ => none
| _ + 1, [] => none
| fuel + 1, c :: rest =>
  if c = '"' then some ("", rest)
  else if c = '\\' then
    match rest with
    | [] => none
    | e :: rest2 =>
      let dec : Option Char :=
        if e = '"' then some '"'
        else if e = '\\' then some '\\'
        else if e = '/' then some '/'
        else if e = 'n' then some '\n'
        else if e = 't' then some '\t'
        else if e = 'r' then some '\r'
        else if e = 'b' then some '\x08'
        else if e = 'f' then some '\x0c'
        else none
      match dec with
      | none => none
      | some d =>
        match parseJString fuel rest2 with
        | some (s, rest3) => some (String.mk (d :: s.data), rest3)
        | none => none
  else
    match parseJString fuel rest with
    | some (s, rest2) => some (String.mk (c :: s.data), rest2)
    | none => none

/-- Parse an optional JSON exponent suffix onto an already-parsed value. -/
def parseJNumExp (v : ℚ) (cs : List Char) : Option (ℚ × List Char) :=
  match cs with
  | e :: rest =>
    if e = 'e' ∨ e = 'E' then
      let (eneg, rest2) :=
        match rest with
        | '-' :: r => (true, r)
        | '+' :: r => (false, r)
        | _ => (false, rest)
      let eds := rest2.takeWhile Char.isDigit
      if eds = [] then none
      else some (applyExp10 v eneg (digitsToNat eds), rest2.dropWhile Char.isDigit)
    else some (v, cs)
  | [] => some (v, [])

/-- Parse a JSON number. -/
def parseJNum (cs : List Char) : Option (ℚ × List Char) :=
  let (neg, cs1) :=
    match cs with
    | '-' :: rest => (true, rest)
    | _ => (false, cs)
  let intPart := cs1.takeWhile Char.isDigit
  let cs2 := cs1.dropWhile Char.isDigit
  if intPart = [] then none
  else
    match cs2 with
    | '.' :: rest =>
      let fracPart := rest.takeWhile Char.isDigit
      if fracPart = [] then none
      else parseJNumExp (decSigned neg intPart fracPart) (rest.dropWhile Char.isDigit)
    | _ => parseJNumExp (decSigned neg intPart []) cs2

mutual
/-- Parse one JSON value. -/
def parseJ : Nat → List Char → Option (J × List Char)
| 0, _ => none
| fuel + 1, cs =>
  match skipWs cs with
  | [] => none
  | c :: rest =>
    if c = '"' then
      match parseJString (fuel + 1) rest with
      | some (s, rest2) => some (J.str s, rest2)
      | none => none
    else if c = lbrace then
      match skipWs rest with
      | c2 :: rest2 =>
        if c2 = rbrace then some (J.obj [], rest2)
        else parseJObj fuel (c2 :: rest2) []
      | [] => none
    else if c = '[' then
      match skipWs rest with
      | ']' :: rest2 => some (J.arr [], rest2)
      | rest2 => parseJArr fuel rest2 []
    else if headIsSub "true".data (c :: rest) then some (J.bool true, (c :: rest).drop 4)
    else if headIsSub "false".data (c :: rest) then some (J.bool false, (c :: rest).drop 5)
    else if headIsSub "null".data (c :: rest) then some (J.null, (c :: rest).drop 4)
    else
      match parseJNum (c :: rest) with
      | some (q, rest2) => some (J.num q, rest2)
      | none => none

/-- Parse the members of a JSON object (at least one) after the opening brace. -/
def parseJObj : Nat → List Char → List (String × J) → Option (J × List Char)
| 0, _, _ => none
| fuel + 1, cs, acc =>
  match skipWs cs with
  | c :: rest =>
    if c = '"' then
      match parseJString (fuel + 1) rest with
      | some (k, rest2) =>
        match skipWs rest2 with
        | ':' :: rest3 =>
          match parseJ fuel rest3 with
          | some (v, rest4) =>
            let acc := jSet acc k v
            match skipWs rest4 with
            | ',' :: rest5 => parseJObj fuel rest5 acc
            | c2 :: rest5 => if c2 = rbrace then some (J.obj acc, rest5) else none
            | [] => none
          | none => none
        | _ => none
      | none => none
    else none
  | [] => none

/-- Parse the elements of a JSON array (at least one) after the opening
bracket. -/
def parseJArr : Nat → List Char → List J → Option (J × List Char)
| 0, _, _ => none
| fuel + 1, cs, acc =>
  match parseJ fuel cs with
  | some (v, rest) =>
    match skipWs rest with
    | ',' :: rest2 => parseJArr fuel rest2 (acc ++ [v])
    | ']' :: rest2 => some (J.arr (acc ++ [v]), rest2)
    | _ => none
  | none => none
end

/-- Python `json.loads`: parse a full JSON document, requiring only whitespace
after the value; `none` models `JSONDecodeError`. -/
def jsonLoads (s : String) : Option J :=
  match parseJ (s.length + 1) s.data with
  | some (j, rest) => if skipWs rest = [] then some j else none
  | none => none

/-! ## `analysis_agent.py` -/

/-- Fuel-bounded splitter on a fixed nonempty separator (`str.split(sep)`). -/
def splitSubF : Nat → List Char → List Char → List Char → List String
| _, _, [], cur => [String.mk cur.reverse]
| 0, _, cs, cur => [String.mk (cur.reverse ++ cs)]
| fuel + 1, pat, c :: rest, cur =>
  if headIsSub pat (c :: rest) then
    String.mk cur.reverse :: splitSubF fuel pat ((c :: rest).drop pat.length) []
  else splitSubF fuel pat rest (c :: cur)

/-- Python `s.split(sep)` for a nonempty separator. -/
def pySplitOn (s sep : String) : List String :=
  splitSubF (s.length + 1) sep.data s.data []

/-- Python `s.startswith(p)`. -/
def pyStartsWith (s p : String) : Bool :=
  headIsSub p.data s.data

/-- `re.sub(r'^\s*json\s*', '', text, flags=re.IGNORECASE)`: drop one leading
whitespace-padded `json` token if present. -/
def stripLeadingJson (s : String) : String :=
  let rest := s.data.dropWhile pyIsWs
  if headIsSub "json".data (rest.map Char.toLower) then
    String.mk ((rest.drop 4).dropWhile pyIsWs)
  else s

/-- `_clean_model_text` (analysis agent): strip markdown code fences, a leading
`json` token, and surrounding whitespace. -/
def cleanModelText (text : String) : String :=
  if text = "" then text
  else
    let text :=
      if containsSub text "```" then
        let parts := pySplitOn text "```"
        match parts.find?
            (fun part =>
              pyStartsWith (pyStrip part) (String.mk [lbrace]) || pyStartsWith (pyStrip part) "[") with
        | some part => pyStrip part
        | none => ((parts.get? 1).getD (parts.headD ""))
      else text
    pyStrip (stripLeadingJson text)

/-- Highest index of pattern `p` in `s` (Python `str.rfind`), `none` for -1. -/
def rfindSubAux (p cs : List Char) (i : Nat) (best : Option Nat) : Option Nat :=
  match cs with
  | [] => best
  | _ :: rest =>
    rfindSubAux p rest (i + 1) (if headIsSub p cs then some i else best)

/-- Python `s.rfind(p)` returning `none` for `-1` (nonempty `p`). -/
def rfindSub (s p : String) : Option Nat :=
  rfindSubAux p.data s.data 0 none

/-- The regex fallback of `_attempt_extract_json`:
`re.search(r"(\{(?:.|\n)*?\})", text)` — the slice from the first opening
brace to the first closing brace after it, when both exist. -/
def regexBraceMin (s : String) : Option String :=
  match findSub s (String.mk [lbrace]) with
  | none => none
  | some i =>
    match findSubAux [rbrace] (s.data.drop (i + 1)) 0 with
    | none => none
    | some k => some (sliceChars s i (i + 1 + k + 1))

/-- `_attempt_extract_json`: direct parse, then first-open/last-close bracket
slices for braces then square brackets (each retried after
`_clean_model_text`), then the minimal brace regex; `None` when all fail. -/
def attemptExtractJson (text : String) : Option J :=
  if text = "" then none
  else
    match jsonLoads text with
    | some j => some j
    | none =>
      let tryPair := fun (oc : String × String) =>
        match findSub text oc.1, rfindSub text oc.2 with
        | some start, some e =>
          if start < e then
            let candidate := sliceChars text start (e + 1)
            match jsonLoads candidate with
            | some j => some j
            | none => jsonLoads (cleanModelText candidate)
          else none
        | _, _ => none
      match tryPair (String.mk [lbrace], String.mk [rbrace]) with
      | some j => some j
      | none =>
        match tryPair ("[", "]") with
        | some j => some j
        | none =>
          match regexBraceMin text with
          | some cand => jsonLoads cand
          | none => none

/-- Sentence-terminating punctuation of `_fallback_extraction`. -/
def isTermPunct (c : Char) : Bool :=
  c = '.' || c = '!' || c = '?'

/-- Fuel-bounded core of the sentence splitter
`re.split(r'(?<=[.!?])\s+', text)`. -/
def sentSplitF : Nat → List Char → List Char → List String
| _, [], cur => [String.mk cur.reverse]
| 0, cs, cur => [String.mk (cur.reverse ++ cs)]
| fuel + 1, c :: rest, cur =>
  if isTermPunct c then
    match rest with
    | r :: _ =>
      if pyIsWs r then
        String.mk (c :: cur).reverse :: sentSplitF fuel (rest.dropWhile pyIsWs) []
      else sentSplitF fuel rest (c :: cur)
    | [] => sentSplitF fuel rest (c :: cur)
  else sentSplitF fuel rest (c :: cur)

/-- `[s.strip() for s in re.split(r'(?<=[.!?])\s+', text.strip()) if s.strip()]`. -/
def pySentences (text : String) : List String :=
  (((sentSplitF (text.length + 1) (stripChars text.data) []).map pyStrip).filter
    (fun s => s ≠ ""))

/-- The fixed method vocabulary of `_fallback_extraction` (each entry is a
regex without metacharacters, so matching is case-insensitive substring
search; the trailing `re.sub(r'\\W+$', '', kw)` cleanup matches a literal
backslash and is a no-op on every entry). -/
def methodKeywords : List String :=
  ["BERT", "RoBERTa", "Transformer", "Transformers", "CNN", "RNN", "LSTM",
   "GAN", "SVM", "reinforcement learning", "deep learning", "self-supervised",
   "contrastive", "fine-tun", "pre-train", "token", "encoder", "decoder"]

/-- Methods detected by `_fallback_extraction`. -/
def methodsFound (text : String) : List String :=
  methodKeywords.filter (fun kw => containsSub (pyLower text) (pyLower kw))

/-- Python `\w` on ASCII input. -/
def isWordChar (c : Char) : Bool :=
  c.isAlphanum || c = '_'

/-- Try the percent regex `\b\d{1,3}(?:\.\d+)?\s?%` at the head of `cs`
(boundary already checked by the caller); returns the match and the rest. -/
def tryPercentAt (cs : List Char) : Option (List Char × List Char) :=
  let run := cs.takeWhile Char.isDigit
  if run.length = 0 ∨ run.length > 3 then none
  else
    let rest := cs.drop run.length
    let (m1, rest1) :=
      match rest with
      | '.' :: r =>
        let f := r.takeWhile Char.isDigit
        if f = [] then (run, rest)
        else (run ++ '.' :: f, r.dropWhile Char.isDigit)
      | _ => (run, rest)
    match rest1 with
    | '%' :: r2 => some (m1 ++ ['%'], r2)
    | w :: '%' :: r2 => if pyIsWs w then some (m1 ++ [w, '%'], r2) else none
    | _ => none

/-- Fuel-bounded `re.findall` for the percent regex. -/
def percentFindAllF : Nat → List Char → Bool → List String
| _, [], _ => []
| 0, _, _ => []
| fuel + 1, c :: rest, prevWord =>
  if ¬ prevWord then
    match tryPercentAt (c :: rest) with
    | some (m, rest2) => String.mk m :: percentFindAllF fuel rest2 false
    | none => percentFindAllF fuel rest (isWordChar c)
  else percentFindAllF fuel rest (isWordChar c)

/-- All percent-literal matches in a text. -/
def percentsIn (text : String) : List String :=
  percentFindAllF (text.length + 1) text.data false

/-- The fixed metric vocabulary of `_fallback_extraction`. -/
def metricKeywords : List String :=
  ["accuracy", "f1", "precision", "recall", "auc", "mse", "rmse"]

/-- Order-preserving string dedup (Python set membership). -/
def dedupStrsAux : List String → List String → List String
| [], _ => []
| s :: rest, seen =>
  if seen.contains s then dedupStrsAux rest seen
  else s :: dedupStrsAux rest (s :: seen)

/-- Metrics detected by `_fallback_extraction`: stripped percent literals plus
matched metric keywords (a set in Python; modelled as a deduplicated list). -/
def metricsFound (text : String) : List String :=
  dedupStrsAux ((percentsIn text).map pyStrip) [] ++
    metricKeywords.filter (fun kw => containsSub (pyLower text) (pyLower kw))

/-- `AnalysisAgent._fallback_extraction`: conservative model-free claim
extraction.  Never fails and performs no external call. -/
def fallbackExtraction (text : String) (chunkId : Nat) : J :=
  let sents := pySentences text
  let primary :=
    match sents.find? (fun s => 30 < s.length) with
    | some s => s
    | none =>
      match sents with
      | s :: _ => s
      | [] => pyStrip (takeChars 200 text)
  let methods := methodsFound text
  let metrics := metricsFound text
  let confidence : ℚ :=
    if ¬ methods.isEmpty ∧ ¬ metrics.isEmpty then mkRat 55 100
    else if ¬ methods.isEmpty ∨ ¬ metrics.isEmpty then mkRat 45 100
    else mkRat 35 100
  J.obj
    [("text", J.str primary),
     ("confidence", J.num confidence),
     ("provenance", J.arr [J.str ("chunk_" ++ toString chunkId)]),
     ("methods", J.arr (methods.map J.str)),
     ("metrics", J.arr (metrics.map J.str)),
     ("used_fallback", J.bool true)]

/-- Observable behaviour of one `generate_content` call: it either raises or
yields a raw response text (the heterogeneous response-shape introspection of
the source collapses to the final raw string it produces). -/
inductive GenBehavior where
| ret (raw : String)
| raiseMsg (msg : String)
deriving Repr

/-- `_call_model_and_parse`: run the model, clean and parse its output;
raises (`Except.error`) when the call raises or nothing parses.  An empty raw
text falls back to `str(response)`, which is never valid JSON, hence the same
`ValueError`. -/
def callModelAndParse (b : GenBehavior) : Except String J :=
  match b with
  | .raiseMsg m => .error m
  | .ret raw =>
    if raw = "" then .error "Could not parse JSON from model response"
    else
      match attemptExtractJson (cleanModelText raw) with
      | some p => .ok p
      | none =>
        match attemptExtractJson raw with
        | some p => .ok p
        | none => .error "Could not parse JSON from model response"

/-- The normalization applied to a parsed model payload in
`_extract_with_gemini` (both the primary and the lite branch): default
`provenance`/`methods`/`metrics`/`used_fallback`, coerce `confidence` to
float with 0.0 fallback.  A non-dict payload raises (`.setdefault` on a
list), which the source catches as a model failure. -/
def normalizeParsed (parsed : J) (chunkId : Nat) : Except String J :=
  match parsed with
  | J.obj kvs =>
    let kvs := jSetDefault kvs "provenance" (J.arr [J.str ("chunk_" ++ toString chunkId)])
    let mv := jGetD (J.obj kvs) "methods" J.null
    let kvs := jSetDefault kvs "methods" (if pyTruthy mv then mv else J.arr [])
    let xv := jGetD (J.obj kvs) "metrics" J.null
    let kvs := jSetDefault kvs "metrics" (if pyTruthy xv then xv else J.arr [])
    let kvs := jSetDefault kvs "used_fallback" (J.bool false)
    let conf := (pyFloatJ (jGetD (J.obj kvs) "confidence" (J.num 0))).getD 0
    .ok (J.obj (jSet kvs "confidence" (J.num conf)))
  | _ => .error "AttributeError: setdefault on non-dict"

/-- One model attempt of `_extract_with_gemini`: call, parse, normalize. -/
def modelStep (b : GenBehavior) (chunkId : Nat) : Except String J :=
  match callModelAndParse b with
  | .error e => .error e
  | .ok parsed => normalizeParsed parsed chunkId

/-- The rate-limit classification applied to a failure message in
`_extract_with_gemini` (it only drives the cooldown timestamp and logging). -/
def isRateLimitMsg (msg : String) : Bool :=
  containsSub (pyLower msg) "quota" || containsSub (pyLower msg) "429" ||
    containsSub (pyLower msg) "rate limit"

/-- The primary-model attempt of `_extract_with_gemini`: skipped when no model
handle is configured or the instance is cooling down; a failure result stands
for the caught exception. -/
def primaryAttempt (primary : Option GenBehavior) (cooldownPassed : Bool) (chunkId : Nat) :
    Option J :=
  match primary, cooldownPassed with
  | some b, true => (modelStep b chunkId).toOption
  | _, _ => none

/-- The lite-model attempt: skipped when no fallback model is configured. -/
def liteAttempt (lite : Option GenBehavior) (chunkId : Nat) : Option J :=
  match lite with
  | some b => (modelStep b chunkId).toOption
  | none => none

/-- `AnalysisAgent._extract_with_gemini`: try the primary model (when
configured and not cooling down), then the lite fallback model, then
`_fallback_extraction`.  Every model failure — raise, rate limit or
unparseable output — is caught and routes to the next step, so the result is
always a claim payload.  The cooldown bookkeeping on failure only sets a
timestamp, surfaced here as the `cooldownPassed` input of the next call. -/
def extractWithGemini (primary : Option GenBehavior) (cooldownPassed : Bool)
    (lite : Option GenBehavior) (text : String) (chunkId : Nat) : J :=
  match primaryAttempt primary cooldownPassed chunkId with
  | some p => p
  | none =>
    match liteAttempt lite chunkId with
    | some p => p
    | none => fallbackExtraction text chunkId

/-- A claim record as assembled by `AnalysisAgent.analyze` (lines 171-179). -/
structure Claim where
  claim_id : String
  text : J
  confidence : ℚ
  provenance : J
  methods : J
  metrics : J
  used_fallback : Bool
deriving Repr

/-- The claim-object assembly of `analyze`; `float()` on the payload
confidence is not guarded there, so a non-coercible value raises. -/
def mkClaimObj (paperId : String) (i : Nat) (cd : J) : Except String Claim :=
  match pyFloatJ (jGetD cd "confidence" (J.num 0)) with
  | none => .error "could not convert claim confidence to float"
  | some q =>
    .ok
      { claim_id := paperId ++ "_claim_" ++ toString i
        text := jGetD cd "text" J.null
        confidence := q
        provenance := jGetD cd "provenance" (J.arr [J.str ("chunk_" ++ toString i)])
        methods := jGetD cd "methods" (J.arr [])
        metrics := jGetD cd "metrics" (J.arr [])
        used_fallback := pyTruthy (jGetD cd "used_fallback" (J.bool false)) }

/-- One chunk of `analyze`s extraction loop together with the generation
behaviour its model calls would observe. -/
structure ChunkCall where
  chunk : String
  primary : Option GenBehavior
  cooldownPassed : Bool
  lite : Option GenBehavior

/-- The claim-collection loop of `analyze` (lines 160-181): extract per chunk,
keep truthy payloads, assemble claim records. -/
def analyzeClaimsF (paperId : String) : Nat → List ChunkCall → Except String (List Claim)
| _, [] => .ok []
| i, cc :: rest =>
  let cd := extractWithGemini cc.primary cc.cooldownPassed cc.lite cc.chunk i
  if pyTruthy cd then
    match mkClaimObj paperId i cd with
    | .error e => .error e
    | .ok cl =>
      match analyzeClaimsF paperId (i + 1) rest with
      | .error e => .error e
      | .ok cls => .ok (cl :: cls)
  else analyzeClaimsF paperId (i + 1) rest

/-- Claims emitted by `AnalysisAgent.analyze` for the given chunks. -/
def analyzeClaims (paperId : String) (calls : List ChunkCall) : Except String (List Claim) :=
  analyzeClaimsF paperId 0 calls

/-- Module initialization of `analysis_agent.py` (lines 17-21): configure the
client when a key is present, otherwise `pass` — never raises. -/
def analysisModuleInit (_googleKey : Option String) : Except String Unit :=
  .ok ()

/-- The error message raised by `synthesis_agent.py` at import time. -/
def synthesisInitErr : String :=
  "GOOGLE_API_KEY environment variable is required for SynthesisAgent. " ++
    "Set it in .env or your environment before starting the server."

/-- Module initialization of `synthesis_agent.py` (lines 11-17): raises
`RuntimeError` unless a non-empty `GOOGLE_API_KEY` is configured. -/
def synthesisModuleInit (googleKey : Option String) : Except String Unit :=
  if googleKey.getD "" = "" then .error synthesisInitErr else .ok ()

/-- Highest index `i` with `a ≤ i < a + k` and `cs[i] = c`
(Python `text.rfind(c, a, a + k)` with `k = b - a`). -/
def rfindGo (cs : List Char) (c : Char) (a : Nat) : Nat → Option Nat
| 0 => none
| k + 1 => if cs.get? (a + k) = some c then some (a + k) else rfindGo cs c a k

/-- Python `text.rfind(".", start, stop)` as used by `_chunk_text`. -/
def rfindCharIn (cs : List Char) (c : Char) (a b : Nat) : Option Nat :=
  rfindGo cs c a (b - a)

/-- The chunk-end selection of `_chunk_text`: the raw window end, pulled back
to just after the last period strictly inside the window — via the source's
`if next_period and next_period > start` test on the `rfind` result (with -1
for not-found, so the truthiness test also rejects a period at index 0). -/
def chunkEnd (cs : List Char) (start csize : Nat) : Nat :=
  let N := cs.length
  let end0 := min (start + csize) N
  if end0 < N then
    let np : ℤ :=
      match rfindCharIn cs '.' start end0 with
      | some p => (p : ℤ)
      | none => -1
    if np ≠ 0 ∧ (start : ℤ) < np then np.toNat + 1 else end0
  else end0

/-- The next loop start of `_chunk_text`:
`end - overlap_chars if end - overlap_chars > start else end` (computed over
`ℤ` as in Python, where the difference may be negative). -/
def nextStart (start endPos overlap : Nat) : Nat :=
  if (start : ℤ) < (endPos : ℤ) - (overlap : ℤ) then endPos - overlap else endPos

/-- Fuel-bounded loop of `_chunk_text`; `none` when the fuel runs out, which
models non-termination (reachable only for `chunk_size_chars = 0`, where the
Python loop indeed never terminates). -/
def chunkLoopF : Nat → List Char → Nat → Nat → Nat → Option (List String)
| 0, cs, start, _, _ => if start < cs.length then none else some []
| fuel + 1, cs, start, csize, overlap =>
  if start < cs.length then
    let e := chunkEnd cs start csize
    let chunk := pyStrip (String.mk ((cs.drop start).take (e - start)))
    match chunkLoopF fuel cs (nextStart start e overlap) csize overlap with
    | none => none
    | some rest => some (if chunk ≠ "" then chunk :: rest else rest)
  else some []

/-- `AnalysisAgent._chunk_text`: empty text yields no chunks; otherwise carriage
returns become spaces and the windowed loop runs. -/
def chunkText (text : String) (csize overlap : Nat) : Option (List String) :=
  if text = "" then some []
  else
    let cs := text.data.map (fun c => if c = '\r' then ' ' else c)
    chunkLoopF (cs.length + 1) cs 0 csize overlap

/-! ## `synthesis_agent.py` -/

/-- `_clean_model_text` (synthesis-agent copy): fences, then strip, then a
leading case-insensitive `json` token. -/
def cleanModelTextS (text : String) : String :=
  if text = "" then text
  else
    let text :=
      if containsSub text "```" then
        let parts := pySplitOn text "```"
        match parts.find?
            (fun part =>
              pyStartsWith (pyStrip part) (String.mk [lbrace]) || pyStartsWith (pyStrip part) "[") with
        | some part => pyStrip part
        | none => ((parts.get? 1).getD (parts.headD ""))
      else text
    let text := pyStrip text
    if pyStartsWith (pyLower text) "json" then pyStrip (String.mk (text.data.drop 4))
    else text

/-- `re.search(r'<JSON>\s*(.*?)\s*</JSON>', raw, re.DOTALL)`: the region
between the first `<JSON>` and the first `</JSON>` after it, trimmed (the
greedy `\s*` borders trim the lazy group; the caller strips once more). -/
def tagMatch (raw : String) : Option String :=
  match findSub raw "<JSON>" with
  | none => none
  | some i =>
    let after := raw.data.drop (i + 6)
    match findSubAux "</JSON>".data after 0 with
    | none => none
    | some k => some (pyStrip (String.mk (after.take k)))

/-- Fuel-bounded core of `re.sub(r',\s*([}\]])', r'\1', s)`: drop a comma (and
the whitespace) directly before a closing bracket. -/
def stripCommasF : Nat → List Char → List Char
| _, [] => []
| 0, cs => cs
| fuel + 1, c :: rest =>
  if c = ',' then
    let wsLen := (rest.takeWhile pyIsWs).length
    match rest.drop wsLen with
    | b :: rest2 =>
      if b = ']' ∨ b = rbrace then b :: stripCommasF fuel rest2
      else c :: stripCommasF fuel rest
    | [] => c :: stripCommasF fuel rest
  else c :: stripCommasF fuel rest

/-- The trailing-separator repair pass of `_call_gemini_json`. -/
def stripTrailingCommas (s : String) : String :=
  String.mk (stripCommasF (s.length + 1) s.data)

/-- `SynthesisAgent._call_gemini_json` with `default=None` (its value at both
call sites): absent handle, a raising call, an empty response, and unparseable
output all yield the default; otherwise extract the `<JSON>` region, clean,
parse, and retry once after comma repair. -/
def callGeminiJson (b : Option GenBehavior) : Option J :=
  match b with
  | none => none
  | some (.raiseMsg _) => none
  | some (.ret raw) =>
    if raw = "" then none
    else
      let jsonText := (tagMatch raw).getD raw
      let cleaned := cleanModelTextS jsonText
      match jsonLoads cleaned with
      | some p => some p
      | none =>
        match jsonLoads (stripTrailingCommas cleaned) with
        | some p => some p
        | none => none

/-- An input claim as read from an analysis dict: `claim_id` is carried
opaquely, `text` is a string per the data model, and `confidence` is an
arbitrary payload value (possibly a string or `None`); a missing key is
modelled as the default `0.0` it acquires at both read sites. -/
structure InClaim where
  claim_id : J
  text : String
  confidence : J

/-- An analysis record: a paper id with its claims. -/
structure Analysis where
  paper_id : String
  claims : List InClaim

/-- The confidence coercion of the claim-pool builder (line 65):
`float(x) if isinstance(x, (int, float, str)) else 0.0` — an unparseable
string raises `ValueError` out of `synthesize`. -/
def confCoerce (v : J) : Except String ℚ :=
  match v with
  | J.num q => .ok q
  | J.bool b => .ok (if b then 1 else 0)
  | J.str s =>
    match pyFloatOfString s with
    | some q => .ok q
    | none => .error ("could not convert string to float: " ++ s)
  | _ => .ok 0

/-- A pooled claim (`claims_for_prompt` entry). -/
structure PoolClaim where
  paper_id : String
  claim_id : J
  text : String
  confidence : ℚ

/-- Left-to-right effectful map over `Except`, failing at the first error. -/
def mapME {α β : Type} (g : α → Except String β) : List α → Except String (List β)
| [] => .ok []
| a :: as =>
  match g a with
  | .error e => .error e
  | .ok y =>
    match mapME g as with
    | .error e => .error e
    | .ok ys => .ok (y :: ys)

/-- The claim-pool builder of `synthesize` (lines 57-69): up to 10 claims per
analysis, then a global cap of 30; every kept claim's confidence is coerced
before the cap is applied. -/
def buildPool (analyses : List Analysis) : Except String (List PoolClaim) :=
  match mapME
      (fun a =>
        mapME
          (fun c =>
            (confCoerce c.confidence).map
              (fun q => PoolClaim.mk a.paper_id c.claim_id c.text q))
          (a.claims.take 10))
      analyses with
  | .error e => .error e
  | .ok ls => .ok (ls.flatten.take 30)

/-- Split a string into whitespace-separated words (Python `str.split()`). -/
def wordsAux : List Char → List Char → List String
| [], cur => if cur = [] then [] else [String.mk cur.reverse]
| c :: rest, cur =>
  if pyIsWs c then
    if cur = [] then wordsAux rest []
    else String.mk cur.reverse :: wordsAux rest []
  else wordsAux rest (c :: cur)

/-- Python `s.split()`. -/
def pyWords (s : String) : List String :=
  wordsAux s.data []

/-- Whether a character is an ASCII lowercase letter or digit. -/
def isLoAlnum (c : Char) : Bool :=
  (97 ≤ c.toNat ∧ c.toNat ≤ 122) || (48 ≤ c.toNat ∧ c.toNat ≤ 57)

/-- Python `sep.join(xs)`. -/
def sepJoin (sep : String) : List String → String
| [] => ""
| [w] => w
| w :: ws => w ++ sep ++ sepJoin sep ws

/-- Join words with single spaces. -/
def joinWords : List String → String :=
  sepJoin " "

/-- `normalize_text` of `_extract_consensus_from_claims`: lowercase, replace
`[^a-z0-9\s]` by spaces, collapse whitespace. -/
def normTextC (s : String) : String :=
  joinWords (pyWords (String.mk
    ((pyLower s).data.map (fun c => if isLoAlnum c || pyIsWs c then c else ' '))))

/-- `get_tokens`: the set of normalized words longer than 3 characters. -/
def getTokens (s : String) : List String :=
  dedupStrsAux ((pyWords (normTextC s)).filter (fun w => 3 < w.length)) []

/-- All ordered pairs `(xs[i], xs[j])` with `i < j`, in loop order. -/
def ordPairs : List α → List (α × α)
| [] => []
| x :: xs => xs.map (fun y => (x, y)) ++ ordPairs xs

/-- Sort a two-element string pair (Python `sorted([a, b])`). -/
def strSorted2 (a b : String) : List String :=
  if charsCmp b.data a.data = .lt then [b, a] else [a, b]

/-- Insert into a code-point-sorted list of strings. -/
def strInsSorted (x : String) : List String → List String
| [] => [x]
| y :: ys => if charsCmp x.data y.data = .lt then x :: y :: ys else y :: strInsSorted x ys

/-- Python `sorted` on strings. -/
def strSort (xs : List String) : List String :=
  xs.foldr strInsSorted []

/-- A heuristic consensus entry (the dicts produced by
`_extract_consensus_from_claims` and `_heuristic_synthesis`). -/
structure HCon where
  text : String
  papers : List String
  average_confidence : ℚ
deriving Repr

/-- The token-intersection of two token sets (Python `&` on sets, counted over
distinct members). -/
def tokInter (a b : List String) : List String :=
  a.filter (fun t => b.contains t)

/-- The average of two pooled confidences, rounded as in the source. -/
def avgConf2 (x y : ℚ) : ℚ :=
  round3 (qDiv (qAdd x y) (mkRat 2 1))

/-- One pair step of `_extract_consensus_from_claims`. -/
def consensusPairStep (st : List HCon × List (List String)) (p : PoolClaim × PoolClaim) :
    List HCon × List (List String) :=
  let (ci, cj) := p
  if ci.paper_id = cj.paper_id then st
  else
    let overlap := tokInter (getTokens ci.text) (getTokens cj.text)
    if overlap.length < 3 then st
    else
      let pairKey :=
        strSorted2 ci.paper_id cj.paper_id ++
          [takeChars 100 (normTextC ci.text), takeChars 100 (normTextC cj.text)]
      if st.2.contains pairKey then st
      else
        (st.1 ++
          [⟨ci.text ++ " / " ++ cj.text, strSorted2 ci.paper_id cj.paper_id,
            avgConf2 ci.confidence cj.confidence⟩],
         st.2 ++ [pairKey])

/-- `SynthesisAgent._extract_consensus_from_claims`: emit a consensus entry for
every cross-paper claim pair sharing at least 3 tokens longer than 3
characters, deduplicated by sorted paper pair plus truncated normalized
texts. -/
def extractConsensusFromClaims (claims : List PoolClaim) : List HCon :=
  ((ordPairs claims).foldl consensusPairStep ([], [])).1

/-- `normalize` of `_heuristic_synthesis` (tokens longer than 2 characters),
taken as a set. -/
def normTokensH (s : String) : List String :=
  dedupStrsAux ((pyWords (String.mk
    ((pyLower s).data.map (fun c => if isLoAlnum c || pyIsWs c then c else ' ')))).filter
      (fun w => 2 < w.length)) []

/-- Whether a search word occurs inside the space-join of a token set
(`a in ' '.join(toks)`).  The searched words contain no spaces and tokens are
alphanumeric, so this holds exactly when the word is a substring of some
token, independently of Python's set iteration order. -/
def tokensContain (toks : List String) (w : String) : Bool :=
  toks.any (fun t => containsSub t w)

/-- The polarity list of `_heuristic_synthesis`. -/
def polarityPairs : List (String × String) :=
  [("increase", "decrease"), ("improve", "worse"), ("higher", "lower"),
   ("positive", "negative"), ("gain", "loss"), ("better", "worse")]

/-- The negation markers of `_heuristic_synthesis`. -/
def negationTerms : List String :=
  ["not", "no", "none", "without", "lack", "fails", "failed", "doesn\x27t",
   "doesnt", "cannot", "can\x27t", "cant"]

/-- A heuristic contradiction entry. -/
structure ContraH where
  claim_a : String
  paper_a : String
  claim_b : String
  paper_b : String
deriving Repr

/-- The canonical dedup key of `_heuristic_synthesis`:
`tuple(sorted([pid_i, pid_j]) + ['::'.join(sorted([text_i.strip()[:120],
text_j.strip()[:120]]))])`. -/
def contraHKey (pidI pidJ textI textJ : String) : List String :=
  strSorted2 pidI pidJ ++
    [match strSorted2 (takeChars 120 (pyStrip textI)) (takeChars 120 (pyStrip textJ)) with
     | [a, b] => a ++ "::" ++ b
     | l => joinWords l]

/-- One pair step of the contradiction scan in `_heuristic_synthesis`,
including the source's unconditional duplicate append on a polarity hit
(line 530) before the deduplicated append (lines 540-548). -/
def contraPairStep (strictCross : Bool)
    (st : List ContraH × List (List String)) (p : PoolClaim × PoolClaim) :
    List ContraH × List (List String) :=
  let (ci, cj) := p
  if strictCross ∧ ci.paper_id = cj.paper_id then st
  else
    let toksI := normTokensH ci.text
    let toksJ := normTokensH cj.text
    let common := tokInter toksI toksJ
    if common.length < 1 then st
    else
      let entry : ContraH := ⟨ci.text, ci.paper_id, cj.text, cj.paper_id⟩
      let found := polarityPairs.any
        (fun ab =>
          (tokensContain toksI ab.1 && tokensContain toksJ ab.2) ||
            (tokensContain toksI ab.2 && tokensContain toksJ ab.1))
      if found then
        let st := (st.1 ++ [entry], st.2)
        let can := contraHKey ci.paper_id cj.paper_id ci.text cj.text
        if st.2.contains can then st else (st.1 ++ [entry], st.2 ++ [can])
      else
        let aNeg := negationTerms.any (fun nt => tokensContain toksI nt)
        let bNeg := negationTerms.any (fun nt => tokensContain toksJ nt)
        if aNeg ≠ bNeg ∧ 2 ≤ common.length then
          let can := contraHKey ci.paper_id cj.paper_id ci.text cj.text
          if st.2.contains can then st else (st.1 ++ [entry], st.2 ++ [can])
        else st

/-- One pair step of the consensus scan in `_heuristic_synthesis` (threshold
over shared tokens; only cross-paper pairs are kept; keyed by sorted paper
pair plus the first five sorted shared tokens). -/
def heurConsensusStep (tokenThreshold : Nat) (strictCross : Bool)
    (st : List (String × HCon)) (p : PoolClaim × PoolClaim) : List (String × HCon) :=
  let (ci, cj) := p
  if strictCross ∧ ci.paper_id = cj.paper_id then st
  else
    let common := tokInter (normTokensH ci.text) (normTokensH cj.text)
    if common.length < tokenThreshold then st
    else if ci.paper_id = cj.paper_id then st
    else
      let key :=
        sepJoin " || " (strSorted2 ci.paper_id cj.paper_id) ++ " :: " ++
          sepJoin " / " ((strSort common).take 5)
      if (st.find? (fun kv => kv.1 = key)).isSome then st
      else
        st ++
          [(key,
            ⟨ci.text ++ " / " ++ cj.text, strSorted2 ci.paper_id cj.paper_id,
              avgConf2 ci.confidence cj.confidence⟩)]

/-- `SynthesisAgent._heuristic_synthesis` with its environment-controlled
parameters surfaced (`ANALYSIS_CONSENSUS_TOKEN_THRESHOLD`, default 2, and
`ANALYSIS_STRICT_CROSSPAPER`, default off): the token-overlap consensus map
and the polarity/negation contradiction scan. -/
def heuristicSynthesis (tokenThreshold : Nat) (strictCross : Bool)
    (claims : List PoolClaim) : List HCon × List ContraH :=
  let pairs := ordPairs claims
  let consensus := (pairs.foldl (heurConsensusStep tokenThreshold strictCross) []).map Prod.snd
  let contradictions := (pairs.foldl (contraPairStep strictCross) ([], [])).1
  (consensus, contradictions)

/-! ### The defensive post-processing stage of `synthesize` (lines 138-261) -/

/-- The per-paper confidence map of `synthesize` (lines 143-153): paper id to
the list of its claims' float-coercible confidences (a failing coercion is
swallowed per claim; a falsy paper id is skipped). -/
def buildPcm (analyses : List Analysis) : List (String × List ℚ) :=
  analyses.foldl
    (fun acc a =>
      if a.paper_id = "" then acc
      else
        let confs := a.claims.filterMap (fun c => pyFloatJ c.confidence)
        if (acc.find? (fun kv => kv.1 = a.paper_id)).isSome then
          acc.map (fun kv => if kv.1 = a.paper_id then (kv.1, kv.2 ++ confs) else kv)
        else acc ++ [(a.paper_id, confs)])
    []

/-- Confidences recorded for a paper id (`paper_conf_map.get(pid, [])`); only
string ids can match the string keys. -/
def pcmGet (pcm : List (String × List ℚ)) (pid : J) : List ℚ :=
  match pid with
  | J.str s => ((pcm.find? (fun kv => kv.1 = s)).map Prod.snd).getD []
  | _ => []

/-- Sum of rationals (Python `sum`, starting at 0). -/
def sumQ (qs : List ℚ) : ℚ :=
  qs.foldl qAdd 0

/-- The mean of the per-claim confidences of the given papers, 0.0 when there
are none. -/
def pcmMean (pcm : List (String × List ℚ)) (papers : List J) : ℚ :=
  let cs := papers.flatMap (pcmGet pcm)
  if cs.isEmpty then 0 else qDiv (sumQ cs) (mkRat cs.length 1)

/-- A cleaned consensus entry. -/
structure CCon where
  text : String
  papers : List J
  average_confidence : ℚ
deriving Repr

/-- A cleaned contradiction entry. -/
structure CPair where
  claim_a : J
  paper_a : J
  claim_b : J
  paper_b : J
deriving Repr

/-- Python iteration over a value (`dict.fromkeys(x)` iterates it): lists give
elements, strings give characters, dicts give keys; other values raise. -/
def jIter : J → Option (List J)
| J.arr xs => some xs
| J.str s => some (s.data.map (fun c => J.str (String.mk [c])))
| J.obj kvs => some (kvs.map (fun kv => J.str kv.1))
| _ => none

/-- `sorted(list(dict.fromkeys(item.get('papers', []))))` with every Python
failure (non-iterable, unhashable, uncomparable) collapsed to `none`, which
the per-item `except` turns into a skip. -/
def consItemPapers (item : J) : Option (List J) :=
  let papers := match item with
    | J.obj _ => jGetD item "papers" (J.arr [])
    | _ => J.arr []
  match jIter papers with
  | none => none
  | some xs =>
    match pyFromKeys xs with
    | none => none
    | some uniq => pySorted uniq

/-- `item.get('text') if isinstance(item, dict) else str(item)`, then
`.lower()` which raises on a non-string. -/
def consRawText (item : J) : Option String :=
  match item with
  | J.obj _ =>
    match jGet item "text" with
    | some (J.str s) => some s
    | _ => none
  | _ => some (pyStr item)

/-- Characters of the consensus normalization
`re.sub(r"[^a-z0-9]\s+", " ", raw_text.lower())`: a non-alphanumeric character
followed by whitespace collapses, with the whitespace run, to one space. -/
def consKeySubF : Nat → List Char → List Char
| _, [] => []
| 0, cs => cs
| fuel + 1, c :: rest =>
  if ¬ isLoAlnum c ∧ pyIsWs (rest.headD 'x') then
    ' ' :: consKeySubF fuel (rest.dropWhile pyIsWs)
  else c :: consKeySubF fuel rest

/-- The consensus dedup text key: the normalization above, stripped and
truncated to 120 characters. -/
def normConsKey (raw : String) : String :=
  takeChars 120 (pyStrip (String.mk (consKeySubF (raw.length + 1) (pyLower raw).data)))

/-- The consensus dedup key: normalized text prefix plus the unique sorted
paper tuple. -/
abbrev CKey := String × List J

/-- Python `==` on consensus keys (string equality on the text component,
elementwise `==` on the paper tuple). -/
def ckeyEqB (k1 k2 : CKey) : Bool :=
  k1.1 = k2.1 && pyEqL k1.2 k2.2

/-- Membership of a consensus key in the seen-set (Python `in`, comparing the
paper tuple by `==`). -/
def ckeyMem (seen : List CKey) (k : CKey) : Bool :=
  seen.any (fun k2 => ckeyEqB k2 k)

/-- The `average_confidence` read of the main consensus branch:
`None` unless the key is present, non-`None` and float-coercible. -/
def consAvgOf (item : J) : Option ℚ :=
  match item with
  | J.obj _ =>
    match jGet item "average_confidence" with
    | some J.null => none
    | some v => pyFloatJ v
    | none => none
  | _ => none

/-- The `average_confidence` read of the merge branch: missing defaults to
0.0; a failing coercion falls back to the papers' pooled mean. -/
def mergeNewConf (pcm : List (String × List ℚ)) (item : J) (papers : List J) : ℚ :=
  match item with
  | J.obj _ =>
    match jGet item "average_confidence" with
    | none => 0
    | some v =>
      match pyFloatJ v with
      | some q => q
      | none => pcmMean pcm papers
  | _ => 0

/-- The merge update of the consensus cleanup (lines 179-199): average the
stored confidence with the incoming one on the first entry matching the
papers tuple and normalized key, and keep the longer text. -/
def mergeFirst (pcm : List (String × List ℚ)) (up : List J) (nk : String)
    (raw : String) (item : J) : List CCon → List CCon
| [] => []
| e :: es =>
  if pyEqL e.papers up && (normConsKey e.text = nk) then
    let newConf := mergeNewConf pcm item up
    let merged :=
      { e with
        average_confidence := round3 (qDiv (qAdd e.average_confidence newConf) (mkRat 2 1))
        text := if e.text.length < raw.length then raw else e.text }
    merged :: es
  else e :: mergeFirst pcm up nk raw item es

/-- One item of the consensus cleanup (lines 160-228): drop entries with fewer
than two unique papers, dedup by normalized-text key plus paper tuple (merging
duplicates), and recompute a missing / placeholder-0.5 average from the
per-paper confidences; any per-item failure skips the item. -/
def consStep (pcm : List (String × List ℚ)) (st : List CCon × List CKey) (item : J) :
    List CCon × List CKey :=
  match consItemPapers item with
  | none => st
  | some up =>
    if up.length < 2 then st
    else
      match consRawText item with
      | none => st
      | some raw =>
        let nk := normConsKey raw
        let key : CKey := (nk, up)
        if ckeyMem st.2 key then (mergeFirst pcm up nk raw item st.1, st.2)
        else
          let avg :=
            match consAvgOf item with
            | some q => if q = mkRat 1 2 then pcmMeanOr pcm up else q
            | none => pcmMeanOr pcm up
          (st.1 ++ [⟨raw, up, round3 avg⟩], st.2 ++ [key])
where
  /-- The recomputation branch: pooled mean, 0.0 when empty. -/
  pcmMeanOr (pcm : List (String × List ℚ)) (papers : List J) : ℚ :=
    pcmMean pcm papers

/-- The consensus half of the defensive cleanup; a non-list payload yields the
empty list. -/
def consensusCleanup (pcm : List (String × List ℚ)) (consensus : J) : List CCon :=
  match consensus with
  | J.arr items => (items.foldl (consStep pcm) ([], [])).1
  | _ => []

/-- The contradiction dedup key:
`(str(claim_a)[:120], str(claim_b)[:120], tuple(sorted([pa, pb])))`. -/
abbrev XKey := String × String × List J

/-- Python `==` on contradiction keys. -/
def xkeyEqB (k1 k2 : XKey) : Bool :=
  k1.1 = k2.1 && k1.2.1 = k2.2.1 && pyEqL k1.2.2 k2.2.2

/-- Membership of a contradiction key in the seen-set. -/
def xkeyMem (seen : List XKey) (k : XKey) : Bool :=
  seen.any (fun k2 => xkeyEqB k2 k)

/-- One item of the contradiction cleanup (lines 237-257): drop items with a
falsy or equal paper pair, dedup by truncated claim texts plus the sorted
paper pair; an uncomparable or unhashable pair raises per item and skips. -/
def contraStep (st : List CPair × List XKey) (item : J) : List CPair × List XKey :=
  let pa := match item with
    | J.obj _ => jGetD item "paper_a" J.null
    | _ => J.null
  let pb := match item with
    | J.obj _ => jGetD item "paper_b" J.null
    | _ => J.null
  if ¬ pyTruthy pa ∨ ¬ pyTruthy pb ∨ pyEq pa pb then st
  else
    let ca := jGetD item "claim_a" J.null
    let cb := jGetD item "claim_b" J.null
    match pySorted [pa, pb] with
    | none => st
    | some sp =>
      if ¬ (jHashable pa ∧ jHashable pb) then st
      else
        let key : XKey := (takeChars 120 (pyStr ca), takeChars 120 (pyStr cb), sp)
        if xkeyMem st.2 key then st
        else (st.1 ++ [⟨ca, pa, cb, pb⟩], st.2 ++ [key])

/-- The contradiction half of the defensive cleanup; a non-list payload yields
the empty list. -/
def contraCleanup (contradictions : J) : List CPair :=
  match contradictions with
  | J.arr items => (items.foldl contraStep ([], [])).1
  | _ => []

/-- A heuristic consensus entry as the Python dict it is. -/
def hconToJ (h : HCon) : J :=
  J.obj
    [("text", J.str h.text), ("papers", J.arr (h.papers.map J.str)),
     ("average_confidence", J.num h.average_confidence)]

/-- A heuristic contradiction entry as the Python dict it is. -/
def chToJ (h : ContraH) : J :=
  J.obj
    [("claim_a", J.str h.claim_a), ("paper_a", J.str h.paper_a),
     ("claim_b", J.str h.claim_b), ("paper_b", J.str h.paper_b)]

/-- A cleaned consensus entry as the Python dict it is (for re-running the
cleanup on its own output). -/
def cconToJ (e : CCon) : J :=
  J.obj
    [("text", J.str e.text), ("papers", J.arr e.papers),
     ("average_confidence", J.num e.average_confidence)]

/-- A cleaned contradiction entry as the Python dict it is. -/
def cpairToJ (p : CPair) : J :=
  J.obj
    [("claim_a", p.claim_a), ("paper_a", p.paper_a),
     ("claim_b", p.claim_b), ("paper_b", p.paper_b)]

/-- `consensus is None or (isinstance(consensus, list) and len(consensus) == 0)`
(second disjunct; `None` is the `Option` layer). -/
def isEmptyListJ : J → Bool
| J.arr [] => true
| _ => false

/-- The result record of `synthesize`. -/
structure SynthResult where
  num_papers : Nat
  num_consensus : Nat
  num_contradictions : Nat
  consensus : List CCon
  contradictions : List CPair
deriving Repr

/-- `SynthesisAgent.synthesize`: build the capped claim pool (raising on a
non-coercible string confidence), attempt both model calls, fall back to the
claim-similarity consensus and the heuristic contradictions, then apply the
defensive cleanup.  With string-typed paper ids the outer `try` around the
cleanup never fires, so the cleanup always applies. -/
def synthesize (analyses : List Analysis) (behCon behX : Option GenBehavior) :
    Except String SynthResult :=
  match buildPool analyses with
  | .error e => .error e
  | .ok pool =>
    let consensusM := callGeminiJson behCon
    let contraM := callGeminiJson behX
    let consensusJ : J :=
      match consensusM with
      | none => J.arr ((extractConsensusFromClaims pool).map hconToJ)
      | some j =>
        if isEmptyListJ j then J.arr ((extractConsensusFromClaims pool).map hconToJ) else j
    let contraJ : J :=
      match contraM with
      | none => J.arr (((heuristicSynthesis 2 false pool).2).map chToJ)
      | some j => j
    let pcm := buildPcm analyses
    let cc := consensusCleanup pcm consensusJ
    let cx := contraCleanup contraJ
    .ok ⟨analyses.length, cc.length, cx.length, cc, cx⟩

/-! ## Statement-level definitions for the claims -/

/-- Whether a confidence payload coerces in the claim-pool builder. -/
def confOk (v : J) : Bool :=
  (confCoerce v).toOption.isSome

/-- Whether every claim confidence in the analyses coerces. -/
def analysesConfOk (analyses : List Analysis) : Bool :=
  analyses.all (fun a => a.claims.all (fun c => confOk c.confidence))

/-- The dedup key a cleaned contradiction entry carries (recomputed from its
fields; for cleanup outputs the sort always succeeds). -/
def cpairKey (p : CPair) : XKey :=
  (takeChars 120 (pyStr p.claim_a), takeChars 120 (pyStr p.claim_b),
    (pySorted [p.paper_a, p.paper_b]).getD [])

/-- The dedup key a cleaned consensus entry carries. -/
def cconKey (e : CCon) : CKey :=
  (normConsKey e.text, e.papers)

/-- Modelled from the claim's words, for the refinement check of the chunker
(claim C8): the window end extends backward to the last sentence-terminating
punctuation within the window only when one lies strictly past the window's
midpoint; otherwise the raw boundary is used. -/
def chunkEndSpecRule (cs : List Char) (start csize : Nat) : Nat :=
  let N := cs.length
  let end0 := min (start + csize) N
  let mid := (start + end0) / 2
  match rfindGo cs '.' start (end0 - start) with
  | some p => if mid < p then p + 1 else end0
  | none => end0

/-- The chunker as the claim describes it, sharing everything with
`chunkText` except the end-selection rule. -/
def chunkLoopSpecF : Nat → List Char → Nat → Nat → Nat → Option (List String)
| 0, cs, start, _, _ => if start < cs.length then none else some []
| fuel + 1, cs, start, csize, overlap =>
  if start < cs.length then
    let e := chunkEndSpecRule cs start csize
    let chunk := pyStrip (String.mk ((cs.drop start).take (e - start)))
    match chunkLoopSpecF fuel cs (nextStart start e overlap) csize overlap with
    | none => none
    | some rest => some (if chunk ≠ "" then chunk :: rest else rest)
  else some []

/-- The claim-worded chunker (see `chunkEndSpecRule`). -/
def chunkTextSpecRule (text : String) (csize overlap : Nat) : Option (List String) :=
  if text = "" then some []
  else
    let cs := text.data.map (fun c => if c = '\r' then ' ' else c)
    chunkLoopSpecF (cs.length + 1) cs 0 csize overlap

/-- The facts the contradiction cleanup establishes for every entry it emits
(used to state its invariants and idempotence). -/
def CPairWF (p : CPair) : Prop :=
  pyEq p.paper_a p.paper_b = false ∧ pyTruthy p.paper_a = true ∧ pyTruthy p.paper_b = true ∧
    (pySorted [p.paper_a, p.paper_b]).isSome = true ∧
    jHashable p.paper_a = true ∧ jHashable p.paper_b = true

/-- The facts the consensus cleanup establishes for every entry it emits: the
paper tuple is dedup- and sort-stable with at least two entries, and the
average is a fixed point of `round3`. -/
def CConWF (e : CCon) : Prop :=
  pyFromKeys e.papers = some e.papers ∧ pySorted e.papers = some e.papers ∧
    2 ≤ e.papers.length ∧ round3 e.average_confidence = e.average_confidence

/-- Paper A of the end-to-end scenario of claim C4. -/
def c4AnalysisA : Analysis :=
  ⟨"A", [⟨J.str "A_c1", "Our method improves accuracy by 5%", J.num (mkRat 8 10)⟩]⟩

/-- Paper B of the end-to-end scenario of claim C4. -/
def c4AnalysisB : Analysis :=
  ⟨"B", [⟨J.str "B_c1", "Accuracy improved by 5 percent in our experiments", J.num (mkRat 7 10)⟩]⟩

end IRIS

/-! # Verification

Bridging lemmas first (relating the kernel-evaluable arithmetic to the field
operations on `ℚ`), then supporting lemmas, then one theorem per claim. -/

namespace IRIS

/-- `mkRat` is division. -/
theorem mkRat_eq_div' (n : ℤ) (d : ℕ) : mkRat n d = (n : ℚ) / (d : ℚ) := by
  rw [Rat.mkRat_eq_divInt, Rat.divInt_eq_div]
  norm_cast

/-- Casting an `Int.natAbs` identity into `ℚ`. -/
theorem natAbs_castQ (n : ℤ) (m : ℤ) (h : (n.natAbs : ℤ) = m) : (n.natAbs : ℚ) = (m : ℚ) := by
  rw [show ((n.natAbs : ℚ)) = (((n.natAbs : ℤ) : ℚ)) from (Int.cast_natCast n.natAbs).symm, h]

/-- `qAdd` agrees with addition. -/
theorem qAdd_eq (a b : ℚ) : qAdd a b = a + b := by
  unfold qAdd
  rw [mkRat_eq_div']
  have h1 : ((a.den : ℚ)) ≠ 0 := Nat.cast_ne_zero.2 a.den_nz
  have h2 : ((b.den : ℚ)) ≠ 0 := Nat.cast_ne_zero.2 b.den_nz
  conv_rhs => rw [← Rat.num_div_den a, ← Rat.num_div_den b]
  rw [div_add_div _ _ h1 h2]
  push_cast
  ring_nf

/-- `qSub` agrees with subtraction. -/
theorem qSub_eq (a b : ℚ) : qSub a b = a - b := by
  unfold qSub
  rw [mkRat_eq_div']
  have h1 : ((a.den : ℚ)) ≠ 0 := Nat.cast_ne_zero.2 a.den_nz
  have h2 : ((b.den : ℚ)) ≠ 0 := Nat.cast_ne_zero.2 b.den_nz
  conv_rhs => rw [← Rat.num_div_den a, ← Rat.num_div_den b]
  rw [div_sub_div _ _ h1 h2]
  push_cast
  ring_nf

/-- `qMul` agrees with multiplication. -/
theorem qMul_eq (a b : ℚ) : qMul a b = a * b := by
  unfold qMul
  rw [mkRat_eq_div']
  have h1 : ((a.den : ℚ)) ≠ 0 := Nat.cast_ne_zero.2 a.den_nz
  have h2 : ((b.den : ℚ)) ≠ 0 := Nat.cast_ne_zero.2 b.den_nz
  conv_rhs => rw [← Rat.num_div_den a, ← Rat.num_div_den b]
  rw [div_mul_div_comm]
  push_cast
  ring_nf

/-- `qDiv` agrees with division. -/
theorem qDiv_eq (a b : ℚ) : qDiv a b = a / b := by
  unfold qDiv
  rcases eq_or_ne b 0 with rfl | hb
  · simp [mkRat_eq_div']
  · have hnum : b.num ≠ 0 := Rat.num_ne_zero.2 hb
    rw [mkRat_eq_div']
    have h1 : ((a.den : ℚ)) ≠ 0 := Nat.cast_ne_zero.2 a.den_nz
    have h2 : ((b.den : ℚ)) ≠ 0 := Nat.cast_ne_zero.2 b.den_nz
    have h3 : ((b.num : ℚ)) ≠ 0 := Int.cast_ne_zero.2 hnum
    have h4 : ((b.num.natAbs : ℚ)) ≠ 0 := Nat.cast_ne_zero.2 (Int.natAbs_ne_zero.2 hnum)
    have hs2 : ((b.num.sign : ℚ)) * (b.num : ℚ) = (b.num.natAbs : ℚ) := by
      rcases lt_trichotomy b.num 0 with h | h | h
      · rw [Int.sign_eq_neg_one_of_neg h, natAbs_castQ b.num (-b.num) (by omega)]
        push_cast
        ring
      · exact absurd h hnum
      · rw [Int.sign_eq_one_of_pos h, natAbs_castQ b.num b.num (by omega)]
        push_cast
        ring
    conv_rhs => rw [← Rat.num_div_den a, ← Rat.num_div_den b]
    push_cast
    field_simp
    linear_combination (a.num * b.den * a.den : ℚ) * hs2

/-- `halfEvenZ` is the identity on integers. -/
theorem halfEvenZ_intCast (m : ℤ) : halfEvenZ (m : ℚ) = m := by
  unfold halfEvenZ
  simp [Rat.intCast_num, Rat.intCast_den]

/-- `mapME` succeeds when every element map succeeds. -/
theorem mapME_exists_ok {α β : Type} (g : α → Except String β) :
    ∀ l : List α, (∀ a ∈ l, ∃ y, g a = .ok y) → ∃ ys, mapME g l = .ok ys := by
  intro l
  induction l with
  | nil => intro _; exact ⟨[], rfl⟩
  | cons a as ih =>
    intro h
    obtain ⟨y, hy⟩ := h a (by simp)
    obtain ⟨ys, hys⟩ := ih (fun x hx => h x (by simp [hx]))
    exact ⟨y :: ys, by simp [mapME, hy, hys]⟩

/-- The pool builder succeeds on analyses whose confidences all coerce. -/
theorem buildPool_isOk (analyses : List Analysis) (hc : analysesConfOk analyses = true) :
    ∃ pool, buildPool analyses = .ok pool := by
  unfold buildPool
  have h1 : ∀ a ∈ analyses,
      ∃ y, mapME
        (fun c => (confCoerce c.confidence).map
          (fun q => PoolClaim.mk a.paper_id c.claim_id c.text q)) (a.claims.take 10) = .ok y := by
    intro a ha
    apply mapME_exists_ok
    intro c hc2
    have hcok : confOk c.confidence = true :=
      (List.all_eq_true.mp ((List.all_eq_true.mp hc) a ha)) c (List.mem_of_mem_take hc2)
    unfold confOk at hcok
    cases h : confCoerce c.confidence with
    | ok q => exact ⟨PoolClaim.mk a.paper_id c.claim_id c.text q, rfl⟩
    | error e =>
      rw [h] at hcok
      exact absurd hcok (by simp [Except.toOption])
  obtain ⟨ys, hys⟩ := mapME_exists_ok _ analyses h1
  exact ⟨ys.flatten.take 30, by simp [hys]⟩

/-- `jGet` on an object is an association lookup. -/
theorem jGet_obj (kvs : List (String × J)) (k : String) :
    jGet (J.obj kvs) k = (kvs.find? (fun kv => kv.1 = k)).map Prod.snd := rfl

/-- Replacing a present key is found by lookup. -/
theorem find?_update (kvs : List (String × J)) (k : String) (v : J)
    (h : (kvs.find? (fun kv => kv.1 = k)).isSome) :
    (kvs.map (fun kv => if kv.1 = k then (k, v) else kv)).find? (fun kv => kv.1 = k) =
      some (k, v) := by
  induction kvs with
  | nil => simp at h
  | cons hd tl ih =>
    by_cases hh : hd.1 = k
    · simp [hh]
    · simp only [List.map_cons, if_neg hh]
      rw [List.find?_cons_of_neg _ (by simp [hh])]
      apply ih
      rw [List.find?_cons_of_neg _ (by simp [hh])] at h
      exact h

/-- An appended fresh key is found by lookup. -/
theorem find?_new (kvs : List (String × J)) (k : String) (v : J)
    (h : kvs.find? (fun kv => kv.1 = k) = none) :
    (kvs ++ [(k, v)]).find? (fun kv => kv.1 = k) = some (k, v) := by
  induction kvs with
  | nil => simp
  | cons hd tl ih =>
    by_cases hh : hd.1 = k
    · rw [List.find?_cons_of_pos _ (by simp [hh])] at h
      exact absurd h (by simp)
    · rw [List.find?_cons_of_neg _ (by simp [hh])] at h
      rw [List.cons_append, List.find?_cons_of_neg _ (by simp [hh])]
      exact ih h

/-- `d[k] = v` makes `d.get(k)` return `v`. -/
theorem jGet_jSet_self (kvs : List (String × J)) (k : String) (v : J) :
    jGet (J.obj (jSet kvs k v)) k = some v := by
  unfold jSet
  by_cases h : (kvs.find? (fun kv => kv.1 = k)).isSome
  · rw [if_pos h, jGet_obj, find?_update kvs k v h]
    rfl
  · rw [if_neg h, jGet_obj,
      find?_new kvs k v (by revert h; cases kvs.find? (fun kv => kv.1 = k) <;> simp)]
    rfl

/-- Lookup of a different key skips an appended entry. -/
theorem find?_append_ne (kvs : List (String × J)) (k2 : String) (d : J) (k : String)
    (h : ¬ k2 = k) :
    (kvs ++ [(k2, d)]).find? (fun kv => kv.1 = k) = kvs.find? (fun kv => kv.1 = k) := by
  induction kvs with
  | nil => simp [List.find?, h]
  | cons hd tl ih =>
    by_cases hh : hd.1 = k
    · rw [List.cons_append, List.find?_cons_of_pos _ (by simp [hh]),
        List.find?_cons_of_pos _ (by simp [hh])]
    · rw [List.cons_append, List.find?_cons_of_neg _ (by simp [hh]),
        List.find?_cons_of_neg _ (by simp [hh])]
      exact ih

/-- `setdefault` on a different key does not change a lookup. -/
theorem jGet_jSetDefault_ne (kvs : List (String × J)) (k2 : String) (d : J) (k : String)
    (h : ¬ k2 = k) :
    jGet (J.obj (jSetDefault kvs k2 d)) k = jGet (J.obj kvs) k := by
  unfold jSetDefault
  split
  · rfl
  · rw [jGet_obj, jGet_obj, find?_append_ne kvs k2 d k h]

/-- Claim C10 (confirmed): for every input string and chunk id, the heuristic
fallback extractor returns a claim payload whose confidence is exactly one of
0.35, 0.45, 0.55 — hence never above 0.55 — whose provenance is exactly the
single list `["chunk_<id>"]`, and whose `used_fallback` flag is true.  (The
embedding is a pure total function: it raises nothing and performs no external
call.) -/
theorem c10_fallback_claim_shape (text : String) (chunkId : Nat) :
    ∃ c : ℚ,
      jGet (fallbackExtraction text chunkId) "confidence" = some (J.num c) ∧
      (c = mkRat 35 100 ∨ c = mkRat 45 100 ∨ c = mkRat 55 100) ∧
      c ≤ mkRat 55 100 ∧
      jGet (fallbackExtraction text chunkId) "provenance" =
        some (J.arr [J.str ("chunk_" ++ toString chunkId)]) ∧
      jGet (fallbackExtraction text chunkId) "used_fallback" = some (J.bool true) := by
  unfold fallbackExtraction
  dsimp only
  split_ifs with h1 h2
  · exact ⟨mkRat 55 100, rfl, Or.inr (Or.inr rfl), by decide, rfl, rfl⟩
  · exact ⟨mkRat 45 100, rfl, Or.inr (Or.inl rfl), by decide, rfl, rfl⟩
  · exact ⟨mkRat 35 100, rfl, Or.inl rfl, by decide, rfl, rfl⟩

/-- Claim C2, counterexample: with zero capability handles configured (no
`GOOGLE_API_KEY`), the synthesis agent cannot even be constructed — its module
raises `RuntimeError` at import (lines 11-17) — while the analysis module
initializes fine; so the two core agents cannot both be constructed and
invoked with zero handles. -/
theorem c2_zero_capability_counterexample :
    synthesisModuleInit none = .error synthesisInitErr ∧
    analysisModuleInit none = .ok () := ⟨rfl, rfl⟩

/-- Claim C2 (amended): with a key configured but no usable model handle, both
sides degrade entirely to heuristics without failing: claim extraction returns
the heuristic fallback claim (flagged `used_fallback`), and `synthesize`
returns a result whose consensus and contradictions are the cleaned-up
heuristic outputs — while module import itself requires a non-empty
`GOOGLE_API_KEY` on the synthesis side. -/
theorem c2_degradation_amended (k : String) (hk : ¬ k = "") (text : String) (i : Nat)
    (analyses : List Analysis) (hc : analysesConfOk analyses = true) :
    synthesisModuleInit (some k) = .ok () ∧
    extractWithGemini none true none text i = fallbackExtraction text i ∧
    jGet (fallbackExtraction text i) "used_fallback" = some (J.bool true) ∧
    ∃ pool r, buildPool analyses = .ok pool ∧ synthesize analyses none none = .ok r ∧
      r.consensus = consensusCleanup (buildPcm analyses)
        (J.arr ((extractConsensusFromClaims pool).map hconToJ)) ∧
      r.contradictions = contraCleanup
        (J.arr (((heuristicSynthesis 2 false pool).2).map chToJ)) := by
  refine ⟨by simp [synthesisModuleInit, hk], rfl, rfl, ?_⟩
  obtain ⟨pool, hpool⟩ := buildPool_isOk analyses hc
  exact ⟨pool,
    ⟨analyses.length,
      (consensusCleanup (buildPcm analyses)
        (J.arr ((extractConsensusFromClaims pool).map hconToJ))).length,
      (contraCleanup (J.arr (((heuristicSynthesis 2 false pool).2).map chToJ))).length,
      consensusCleanup (buildPcm analyses)
        (J.arr ((extractConsensusFromClaims pool).map hconToJ)),
      contraCleanup (J.arr (((heuristicSynthesis 2 false pool).2).map chToJ))⟩,
    hpool, by unfold synthesize; rw [hpool]; rfl, rfl, rfl⟩

/-- Witness for `c2_degradation_amended` at a concrete key, text and input. -/
theorem c2_degradation_amended_witness :
    synthesisModuleInit (some "key") = .ok () ∧
    extractWithGemini none true none "t" 0 = fallbackExtraction "t" 0 ∧
    jGet (fallbackExtraction "t" 0) "used_fallback" = some (J.bool true) ∧
    ∃ pool r, buildPool [] = .ok pool ∧ synthesize [] none none = .ok r ∧
      r.consensus = consensusCleanup (buildPcm [])
        (J.arr ((extractConsensusFromClaims pool).map hconToJ)) ∧
      r.contradictions = contraCleanup
        (J.arr (((heuristicSynthesis 2 false pool).2).map chToJ)) :=
  c2_degradation_amended "key" (by decide) "t" 0 [] (by decide)

/-- Claim C3, counterexample: `synthesize` is not total over every analyses
input — a claim confidence that is a non-float-parseable string raises
`ValueError` out of the pool builder (line 65) before any capability is
consulted. -/
theorem c3_totality_counterexample :
    synthesize [⟨"A", [⟨J.null, "t", J.str "high"⟩]⟩] none none =
      .error "could not convert string to float: high" := rfl

/-- Claim C3 (amended): with respect to capability failures both chains are
total — `_extract_with_gemini` always returns either a successfully parsed
model payload or the heuristic fallback (in particular, when both model
attempts fail it returns exactly `_fallback_extraction`), and `synthesize`
returns a result for every capability behaviour whenever the analyses' claim
confidences coerce; only a malformed input (non-coercible string confidence)
is a caller-visible failure. -/
theorem c3_totality_amended :
    (∀ (p : Option GenBehavior) (cd : Bool) (l : Option GenBehavior) (t : String) (i : Nat),
      extractWithGemini p cd l t i = fallbackExtraction t i ∨
        ∃ j, (primaryAttempt p cd i = some j ∨ liteAttempt l i = some j) ∧
          extractWithGemini p cd l t i = j) ∧
    (∀ (p : Option GenBehavior) (cd : Bool) (l : Option GenBehavior) (t : String) (i : Nat),
      primaryAttempt p cd i = none → liteAttempt l i = none →
        extractWithGemini p cd l t i = fallbackExtraction t i) ∧
    (∀ (analyses : List Analysis) (b1 b2 : Option GenBehavior),
      analysesConfOk analyses = true → ∃ r, synthesize analyses b1 b2 = .ok r) := by
  refine ⟨?_, ?_, ?_⟩
  · intro p cd l t i
    unfold extractWithGemini
    cases hp : primaryAttempt p cd i with
    | some j => exact Or.inr ⟨j, Or.inl rfl, rfl⟩
    | none =>
      cases hl : liteAttempt l i with
      | some j => exact Or.inr ⟨j, Or.inr rfl, rfl⟩
      | none => exact Or.inl rfl
  · intro p cd l t i hp hl
    unfold extractWithGemini
    rw [hp, hl]
  · intro analyses b1 b2 hc
    obtain ⟨pool, hpool⟩ := buildPool_isOk analyses hc
    exact ⟨_, by unfold synthesize; rw [hpool]⟩

/-- Witness for `c3_totality_amended`: a raising primary model and an absent
lite model fall through to the heuristic, and `synthesize` succeeds on a
well-typed input under a raising capability. -/
theorem c3_totality_amended_witness :
    extractWithGemini (some (.raiseMsg "429 quota")) true none "t" 0 =
      fallbackExtraction "t" 0 ∧
    ∃ r, synthesize [c4AnalysisA] (some (.raiseMsg "boom")) none = .ok r :=
  ⟨c3_totality_amended.2.1 (some (.raiseMsg "429 quota")) true none "t" 0 rfl rfl,
   c3_totality_amended.2.2 [c4AnalysisA] (some (.raiseMsg "boom")) none (by decide)⟩

/-- Claim C5, counterexample: no single response-repair chain handles all four
shapes — the analysis-side chain (`_attempt_extract_json`) fails on a trailing
separator before a closing bracket, and the synthesis-side chain
(`_call_gemini_json`) fails on prose-embedded structure. -/
theorem c5_repair_chain_counterexample :
    attemptExtractJson "\x7b\"a\": 1,\x7d" = none ∧
    callGeminiJson (some (.ret "The answer is \x7b\"a\": 1\x7d indeed")) = none := ⟨rfl, rfl⟩

/-- Claim C5 (amended): each repair chain parses clean JSON, tag-wrapped JSON
and returns the failure sentinel on pure prose; but prose-embedded JSON is
recovered only by the analysis-side chain (bracket slicing), and a trailing
separator before a closing bracket is repaired only by the synthesis-side
chain (comma stripping) — neither chain handles all four shapes. -/
theorem c5_repair_chain_amended :
    attemptExtractJson "\x7b\"a\": 1\x7d" = some (J.obj [("a", J.num 1)]) ∧
    attemptExtractJson "<JSON>\x7b\"a\": 1\x7d</JSON>" = some (J.obj [("a", J.num 1)]) ∧
    attemptExtractJson "The answer is \x7b\"a\": 1\x7d indeed" = some (J.obj [("a", J.num 1)]) ∧
    attemptExtractJson "\x7b\"a\": 1,\x7d" = none ∧
    attemptExtractJson "no structured content here" = none ∧
    callGeminiJson (some (.ret "\x7b\"a\": 1\x7d")) = some (J.obj [("a", J.num 1)]) ∧
    callGeminiJson (some (.ret "<JSON>\x7b\"a\": 1\x7d</JSON>")) = some (J.obj [("a", J.num 1)]) ∧
    callGeminiJson (some (.ret "\x7b\"a\": 1,\x7d")) = some (J.obj [("a", J.num 1)]) ∧
    callGeminiJson (some (.ret "The answer is \x7b\"a\": 1\x7d indeed")) = none ∧
    callGeminiJson (some (.ret "no structured content here")) = none :=
  ⟨rfl, rfl, rfl, rfl, rfl, rfl, rfl, rfl, rfl, rfl⟩

/-- Claim C1, counterexample: an in-range-violating numeric confidence from
the model path is emitted unclamped — a model payload with confidence 5.0
yields an emitted claim with confidence 5, outside `[0, 1]`. -/
theorem c1_confidence_unclamped_counterexample :
    analyzeClaims "P" [⟨"x", some (.ret "\x7b\"text\": \"t\", \"confidence\": 5.0\x7d"), true, none⟩] =
      .ok [⟨"P_claim_0", J.str "t", 5, J.arr [J.str "chunk_0"], J.arr [], J.arr [], false⟩] ∧
    ¬ ((5 : ℚ) ≤ 1) := ⟨rfl, by norm_num⟩

/-- Claim C1 (amended): every emitted claim confidence is numeric — the
fallback path always yields a value in `[0, 1]` (one of 0.35/0.45/0.55), and
the model-path normalization coerces the upstream confidence to float with
default 0.0 on a missing or non-coercible value — but there is no clamping:
an out-of-range numeric upstream value is emitted unchanged. -/
theorem c1_confidence_numeric_amended :
    (∀ (text : String) (i : Nat),
      ∃ c : ℚ, jGet (fallbackExtraction text i) "confidence" = some (J.num c) ∧
        0 ≤ c ∧ c ≤ 1) ∧
    (∀ (parsed : J) (i : Nat) (out : J), normalizeParsed parsed i = .ok out →
      jGet out "confidence" =
        some (J.num ((pyFloatJ (jGetD parsed "confidence" (J.num 0))).getD 0))) := by
  constructor
  · intro text i
    unfold fallbackExtraction
    dsimp only
    split_ifs with h1 h2
    · exact ⟨mkRat 55 100, rfl, by decide, by decide⟩
    · exact ⟨mkRat 45 100, rfl, by decide, by decide⟩
    · exact ⟨mkRat 35 100, rfl, by decide, by decide⟩
  · intro parsed i out h
    cases parsed with
    | obj kvs =>
      simp only [normalizeParsed, Except.ok.injEq] at h
      subst h
      rw [jGet_jSet_self]
      congr 2
      unfold jGetD
      rw [jGet_jSetDefault_ne _ _ _ _ (by decide), jGet_jSetDefault_ne _ _ _ _ (by decide),
        jGet_jSetDefault_ne _ _ _ _ (by decide), jGet_jSetDefault_ne _ _ _ _ (by decide)]
    | null => simp [normalizeParsed] at h
    | bool b => simp [normalizeParsed] at h
    | num q => simp [normalizeParsed] at h
    | str s => simp [normalizeParsed] at h
    | arr xs => simp [normalizeParsed] at h

/-- Witness for `c1_confidence_numeric_amended` at a concrete model payload
with confidence 0.9. -/
theorem c1_confidence_numeric_amended_witness :
    jGet ((normalizeParsed (J.obj [("text", J.str "t"), ("confidence", J.num (mkRat 9 10))]) 0
        |>.toOption.getD J.null)) "confidence" = some (J.num (mkRat 9 10)) := by
  have h := c1_confidence_numeric_amended.2
    (J.obj [("text", J.str "t"), ("confidence", J.num (mkRat 9 10))]) 0
    ((normalizeParsed (J.obj [("text", J.str "t"), ("confidence", J.num (mkRat 9 10))]) 0
      |>.toOption.getD J.null)) rfl
  rw [h]
  rfl

/-- Claim C4, counterexample: passing the two claims through `synthesize` with
no generation capability yields no consensus at all — the result is exactly
the empty synthesis record (the pair shares only the significant token
`accuracy`, below the similarity fallback's threshold of 3). -/
theorem c4_consensus_counterexample :
    synthesize [c4AnalysisA, c4AnalysisB] none none = .ok ⟨2, 0, 0, [], []⟩ := rfl

/-- Claim C4 (amended): with no capability configured, `synthesize` on the two
claims returns no consensus statements; the token-overlap consensus of
`_heuristic_synthesis` — which `synthesize` does not use for consensus — would
yield exactly one entry referencing both papers with average confidence
0.75. -/
theorem c4_heuristic_consensus_amended :
    synthesize [c4AnalysisA, c4AnalysisB] none none = .ok ⟨2, 0, 0, [], []⟩ ∧
    (heuristicSynthesis 2 false ((buildPool [c4AnalysisA, c4AnalysisB]).toOption.getD [])).1 =
      [⟨"Our method improves accuracy by 5% / Accuracy improved by 5 percent in our experiments",
        ["A", "B"], mkRat 3 4⟩] := ⟨rfl, rfl⟩


theorem rfindGo_some_spec (cs : List Char) (c : Char) (a : Nat) :
    ∀ (k p : Nat), rfindGo cs c a k = some p →
      a ≤ p ∧ p < a + k ∧ cs.get? p = some c ∧
        ∀ q, p < q → q < a + k → cs.get? q ≠ some c := by
  intro k
  induction k with
  | zero => intro p h; simp [rfindGo] at h
  | succ k ih =>
    intro p h
    unfold rfindGo at h
    split at h
    · rename_i hc
      cases h
      exact ⟨Nat.le_add_right a k, by omega, hc, fun q hq1 hq2 => by omega⟩
    · rename_i hc
      obtain ⟨h1, h2, h3, h4⟩ := ih p h
      refine ⟨h1, by omega, h3, fun q hq1 hq2 => ?_⟩
      rcases Nat.lt_or_ge q (a + k) with hlt | hge
      · exact h4 q hq1 hlt
      · have : q = a + k := by omega
        subst this
        exact hc

theorem rfindGo_none_spec (cs : List Char) (c : Char) (a : Nat) :
    ∀ (k : Nat), rfindGo cs c a k = none →
      ∀ q, a ≤ q → q < a + k → cs.get? q ≠ some c := by
  intro k
  induction k with
  | zero => intro _ q h1 h2; omega
  | succ k ih =>
    intro h q h1 h2
    unfold rfindGo at h
    split at h
    · exact absurd h (by simp)
    · rename_i hc
      rcases Nat.lt_or_ge q (a + k) with hlt | hge
      · exact ih h q h1 hlt
      · have : q = a + k := by omega
        subst this
        exact hc

theorem chunkEnd_of_period (cs : List Char) (start csize : Nat)
    (hN : min (start + csize) cs.length < cs.length)
    (hex : ∃ p, start < p ∧ p < min (start + csize) cs.length ∧ cs.get? p = some '.') :
    ∃ p, chunkEnd cs start csize = p + 1 ∧ start < p ∧
      p < min (start + csize) cs.length ∧ cs.get? p = some '.' ∧
      ∀ q, p < q → q < min (start + csize) cs.length → cs.get? q ≠ some '.' := by
  obtain ⟨p0, hp0s, hp0e, hp0c⟩ := hex
  unfold chunkEnd rfindCharIn
  dsimp only
  rw [if_pos hN]
  cases hr : rfindGo cs '.' start (min (start + csize) cs.length - start) with
  | none =>
    exact absurd hp0c (rfindGo_none_spec cs '.' start _ hr p0 (le_of_lt hp0s) (by omega))
  | some p =>
    dsimp only
    obtain ⟨h1, h2, h3, h4⟩ := rfindGo_some_spec cs '.' start _ p hr
    have h2' : p < min (start + csize) cs.length := by omega
    have hps : start < p := by
      by_contra hno
      have hpeq : p = start := by omega
      exact absurd hp0c (h4 p0 (by omega) (by omega))
    rw [if_pos ⟨by omega, by exact_mod_cast hps⟩]
    refine ⟨p, ?_, hps, h2', h3, fun q hq1 hq2 => h4 q hq1 (by omega)⟩
    simp

theorem chunkEnd_no_period (cs : List Char) (start csize : Nat)
    (hno : ∀ p, start < p → p < min (start + csize) cs.length → cs.get? p ≠ some '.') :
    chunkEnd cs start csize = min (start + csize) cs.length := by
  unfold chunkEnd rfindCharIn
  dsimp only
  split
  · rename_i hN
    cases hr : rfindGo cs '.' start (min (start + csize) cs.length - start) with
    | none => rfl
    | some p =>
      dsimp only
      obtain ⟨h1, h2, h3, h4⟩ := rfindGo_some_spec cs '.' start _ p hr
      have hps : ¬ start < p := fun hlt => hno p hlt (by omega) h3
      rw [if_neg ?_]
      rintro ⟨hne, hlt⟩
      exact hps (by exact_mod_cast hlt)
  · rfl

theorem chunkEnd_final (cs : List Char) (start csize : Nat)
    (h : cs.length ≤ min (start + csize) cs.length) :
    chunkEnd cs start csize = min (start + csize) cs.length := by
  unfold chunkEnd
  dsimp only
  rw [if_neg (by omega)]

theorem chunkEnd_gt (cs : List Char) (start csize : Nat)
    (h1 : start < cs.length) (h2 : 0 < csize) :
    start < chunkEnd cs start csize := by
  unfold chunkEnd rfindCharIn
  dsimp only
  split
  · cases hr : rfindGo cs '.' start (min (start + csize) cs.length - start) with
    | none =>
      dsimp only
      rw [if_neg (by rintro ⟨_, hlt⟩; omega)]
      omega
    | some p =>
      dsimp only
      split
      · rename_i hcond
        have hlt : (start : ℤ) < (p : ℤ) := hcond.2
        have : start < p := by exact_mod_cast hlt
        simp
        omega
      · omega
  · omega

theorem nextStart_facts (start e overlap : Nat) (h : start < e) :
    start < nextStart start e overlap ∧
      (nextStart start e overlap = e - overlap ∨ nextStart start e overlap = e) := by
  unfold nextStart
  split
  · rename_i hc
    constructor
    · omega
    · exact Or.inl rfl
  · exact ⟨h, Or.inr rfl⟩

theorem dropWhile_head_not (p : Char → Bool) :
    ∀ (l : List Char) (x : Char) (xs : List Char), l.dropWhile p = x :: xs → p x = false := by
  intro l
  induction l with
  | nil => intro x xs h; simp at h
  | cons hd tl ih =>
    intro x xs h
    rw [List.dropWhile_cons] at h
    split at h
    · exact ih x xs h
    · rename_i hp
      cases h
      simpa using hp

theorem stripChars_idem (cs : List Char) : stripChars (stripChars cs) = stripChars cs := by
  unfold stripChars
  set ds := cs.dropWhile pyIsWs with hds
  set w := ds.reverse.dropWhile pyIsWs with hw
  cases hwc : w with
  | nil => simp [hwc]
  | cons x xs =>
    have hx : pyIsWs x = false := dropWhile_head_not pyIsWs ds.reverse x xs (hw ▸ hwc)
    have hlast : w.getLast? = ds.reverse.getLast? := by
      have hsuf : w <:+ ds.reverse := hw ▸ List.dropWhile_suffix pyIsWs
      obtain ⟨t, ht⟩ := hsuf
      rw [← ht, List.getLast?_append_of_ne_nil]
      simp [hwc]
    have hdsne : ds ≠ [] := by
      intro hnil
      rw [hnil] at hw
      simp at hw
      rw [hw] at hwc
      exact List.noConfusion hwc
    obtain ⟨y, ys, hys⟩ := List.exists_cons_of_ne_nil hdsne
    have hy : pyIsWs y = false := dropWhile_head_not pyIsWs cs y ys (hds ▸ hys)
    have hlast2 : w.getLast? = some y := by
      rw [hlast, List.getLast?_reverse, hys]
      rfl
    have h1 : w.reverse.dropWhile pyIsWs = w.reverse := by
      have hhd : w.reverse = y :: (w.reverse.tail) := by
        have hh : w.reverse.head? = some y := by
          rw [List.head?_reverse]
          exact hlast2
        cases hrw : w.reverse with
        | nil => rw [hrw] at hh; simp at hh
        | cons a as =>
          rw [hrw] at hh
          simp at hh
          simp [hh]
      rw [hhd, List.dropWhile_cons, hy]
      simp
    have h2 : w.dropWhile pyIsWs = w := by
      rw [hwc, List.dropWhile_cons, hx]
      simp
    rw [hwc] at h1 h2
    rw [h1, List.reverse_reverse, h2]

theorem pyStrip_idem (s : String) : pyStrip (pyStrip s) = pyStrip s := by
  unfold pyStrip
  rw [show (String.mk (stripChars s.data)).data = stripChars s.data from rfl, stripChars_idem]

theorem chunkLoopF_total (csize overlap : Nat) (h2 : 0 < csize) :
    ∀ (fuel : Nat) (cs : List Char) (start : Nat), cs.length - start < fuel →
      ∃ r, chunkLoopF fuel cs start csize overlap = some r ∧
        ∀ c ∈ r, c ≠ "" ∧ pyStrip c = c := by
  intro fuel
  induction fuel with
  | zero => intro cs start h; omega
  | succ f ih =>
    intro cs start hf
    unfold chunkLoopF
    by_cases hs : start < cs.length
    · rw [if_pos hs]
      have he : start < chunkEnd cs start csize := chunkEnd_gt cs start csize hs h2
      have hn := (nextStart_facts start (chunkEnd cs start csize) overlap he).1
      obtain ⟨r, hr, hp⟩ := ih cs (nextStart start (chunkEnd cs start csize) overlap) (by omega)
      dsimp only
      rw [hr]
      refine ⟨_, rfl, ?_⟩
      intro c hc
      split at hc
      · rename_i hne
        rcases List.mem_cons.mp hc with rfl | hmem
        · exact ⟨hne, pyStrip_idem _⟩
        · exact hp c hmem
      · exact hp c hc
    · rw [if_neg hs]
      exact ⟨[], rfl, by simp⟩

end IRIS
namespace IRIS
/-- Claim C8, counterexample: the code extends a chunk's end to the last
period anywhere strictly past the chunk's start (and only when the window is
truncated), not only when one lies past the window's midpoint as the claim
states: on `"ab. cdefghijklmno"` with window 10 the period at index 2 — before
the midpoint 5 — still triggers the extension, so the code's chunks differ
from the claim-worded chunker's. -/
theorem c8_chunk_end_counterexample :
    chunkText "ab. cdefghijklmno" 10 0 = some ["ab.", "cdefghijk", "lmno"] ∧
    chunkTextSpecRule "ab. cdefghijklmno" 10 0 = some ["ab. cdefgh", "ijklmno"] ∧
    (["ab.", "cdefghijk", "lmno"] : List String) ≠ ["ab. cdefgh", "ijklmno"] :=
  ⟨rfl, rfl, by decide⟩

/-- Claim C8 (amended): splitting empty input yields an empty sequence, and
each truncated window's end is pulled back to just after the last `'.'`
strictly past the chunk's start when one exists in the window (only `'.'`
counts, not `'!'`/`'?'`); otherwise — including every non-truncated final
window — the raw character boundary is used. -/
theorem c8_chunk_end_amended :
    (∀ (csize overlap : Nat), chunkText "" csize overlap = some []) ∧
    (∀ (cs : List Char) (start csize : Nat),
      (cs.length ≤ min (start + csize) cs.length →
        chunkEnd cs start csize = min (start + csize) cs.length) ∧
      (min (start + csize) cs.length < cs.length →
        ((∃ p, start < p ∧ p < min (start + csize) cs.length ∧ cs.get? p = some '.') →
          ∃ p, chunkEnd cs start csize = p + 1 ∧ start < p ∧
            p < min (start + csize) cs.length ∧ cs.get? p = some '.' ∧
            ∀ q, p < q → q < min (start + csize) cs.length → cs.get? q ≠ some '.') ∧
        ((∀ p, start < p → p < min (start + csize) cs.length → cs.get? p ≠ some '.') →
          chunkEnd cs start csize = min (start + csize) cs.length))) :=
  ⟨fun _ _ => rfl, fun cs start csize =>
    ⟨chunkEnd_final cs start csize, fun hN =>
      ⟨chunkEnd_of_period cs start csize hN, fun hno => chunkEnd_no_period cs start csize hno⟩⟩⟩

/-- Witness for `c8_chunk_end_amended` at a concrete window with a period. -/
theorem c8_chunk_end_amended_witness :
    ∃ p, chunkEnd "ab. cdefghijklmno".data 0 10 = p + 1 ∧ 0 < p ∧
      p < min (0 + 10) "ab. cdefghijklmno".data.length ∧
      "ab. cdefghijklmno".data.get? p = some '.' ∧
      ∀ q, p < q → q < min (0 + 10) "ab. cdefghijklmno".data.length →
        "ab. cdefghijklmno".data.get? q ≠ some '.' :=
  ((c8_chunk_end_amended.2 "ab. cdefghijklmno".data 0 10).2 (by decide)).1
    ⟨2, by decide, by decide, by decide⟩

/-- Claim C9 (confirmed): for positive chunk size and smaller overlap the
chunking loop terminates on every input with an ordered chunk sequence — each
emitted chunk is non-empty and already whitespace-trimmed, and each loop step
moves the next start to `end - overlap` when that lies strictly past the
current start and to `end` otherwise, so the start strictly increases. -/
theorem c9_chunker_termination (text : String) (csize overlap : Nat)
    (h1 : 0 < csize) (h2 : overlap < csize) :
    (∃ chunks, chunkText text csize overlap = some chunks ∧
      ∀ c ∈ chunks, c ≠ "" ∧ pyStrip c = c) ∧
    (∀ (cs : List Char) (start : Nat), start < cs.length →
      start < nextStart start (chunkEnd cs start csize) overlap ∧
      (nextStart start (chunkEnd cs start csize) overlap = chunkEnd cs start csize - overlap ∨
        nextStart start (chunkEnd cs start csize) overlap = chunkEnd cs start csize)) := by
  constructor
  · unfold chunkText
    split
    · exact ⟨[], rfl, by simp⟩
    · exact chunkLoopF_total csize overlap h1 _ _ 0 (by omega)
  · intro cs start hs
    exact nextStart_facts start (chunkEnd cs start csize) overlap (chunkEnd_gt cs start csize hs h1)

/-- Witness for `c9_chunker_termination` at a concrete text and bounds. -/
theorem c9_chunker_termination_witness :
    (∃ chunks, chunkText "ab. cdefghijklmno" 10 3 = some chunks ∧
      ∀ c ∈ chunks, c ≠ "" ∧ pyStrip c = c) ∧
    (∀ (cs : List Char) (start : Nat), start < cs.length →
      start < nextStart start (chunkEnd cs start 10) 3 ∧
      (nextStart start (chunkEnd cs start 10) 3 = chunkEnd cs start 10 - 3 ∨
        nextStart start (chunkEnd cs start 10) 3 = chunkEnd cs start 10)) :=
  c9_chunker_termination "ab. cdefghijklmno" 10 3 (by decide) (by decide)


end IRIS

namespace IRIS

/-! ## Claim C6: contradiction-list invariants -/

theorem contraStep_cases (st : List CPair × List XKey) (item : J) :
    contraStep st item = st ∨
      ∃ p : CPair, ∃ sp : List J,
        CPairWF p ∧ pySorted [p.paper_a, p.paper_b] = some sp ∧
        xkeyMem st.2 (cpairKey p) = false ∧
        contraStep st item = (st.1 ++ [p], st.2 ++ [cpairKey p]) := by
  unfold contraStep
  dsimp only
  set PA := (match item with | J.obj _ => jGetD item "paper_a" J.null | _ => J.null) with hPA
  set PB := (match item with | J.obj _ => jGetD item "paper_b" J.null | _ => J.null) with hPB
  set CA := jGetD item "claim_a" J.null with hCA
  set CB := jGetD item "claim_b" J.null with hCB
  split
  · exact Or.inl rfl
  · rename_i hguard
    push_neg at hguard
    simp only [Bool.not_eq_true] at hguard
    split
    · exact Or.inl rfl
    · rename_i sp hsp
      split
      · exact Or.inl rfl
      · rename_i hhash
        rw [not_not] at hhash
        split
        · exact Or.inl rfl
        · rename_i hmem
          rw [Bool.not_eq_true] at hmem
          refine Or.inr ⟨⟨CA, PA, CB, PB⟩, sp,
            ⟨hguard.2.2, hguard.1, hguard.2.1, by simp [hsp], hhash.1, hhash.2⟩, hsp, ?_, ?_⟩
          · simpa [cpairKey, hsp] using hmem
          · simp [cpairKey, hsp]

theorem contraStep_inv (st : List CPair × List XKey) (item : J)
    (h1 : st.2 = st.1.map cpairKey)
    (h2 : ∀ p ∈ st.1, CPairWF p)
    (h3 : List.Pairwise (fun k1 k2 => xkeyEqB k1 k2 = false) st.2) :
    (contraStep st item).2 = (contraStep st item).1.map cpairKey ∧
      (∀ p ∈ (contraStep st item).1, CPairWF p) ∧
      List.Pairwise (fun k1 k2 => xkeyEqB k1 k2 = false) (contraStep st item).2 := by
  rcases contraStep_cases st item with hc | ⟨p, sp, hwf, hsp, hmem, hc⟩
  · rw [hc]; exact ⟨h1, h2, h3⟩
  · rw [hc]
    refine ⟨by simp [h1], ?_, ?_⟩
    · intro q hq
      rcases List.mem_append.1 hq with h | h
      · exact h2 q h
      · rw [List.mem_singleton] at h
        subst h; exact hwf
    · rw [List.pairwise_append]
      refine ⟨h3, List.pairwise_singleton _ _, ?_⟩
      intro k hk k2 hk2
      rw [List.mem_singleton] at hk2
      subst hk2
      simp only [xkeyMem, List.any_eq_false, Bool.not_eq_true] at hmem
      exact hmem k hk

theorem contraFold_inv (items : List J) :
    ∀ st : List CPair × List XKey,
      st.2 = st.1.map cpairKey →
      (∀ p ∈ st.1, CPairWF p) →
      List.Pairwise (fun k1 k2 => xkeyEqB k1 k2 = false) st.2 →
      ((items.foldl contraStep st).2 = (items.foldl contraStep st).1.map cpairKey ∧
        (∀ p ∈ (items.foldl contraStep st).1, CPairWF p) ∧
        List.Pairwise (fun k1 k2 => xkeyEqB k1 k2 = false) (items.foldl contraStep st).2) := by
  induction items with
  | nil => exact fun st h1 h2 h3 => ⟨h1, h2, h3⟩
  | cons item items ih =>
    intro st h1 h2 h3
    rw [List.foldl_cons]
    have h := contraStep_inv st item h1 h2 h3
    exact ih (contraStep st item) h.1 h.2.1 h.2.2

theorem contraCleanup_inv (x : J) :
    (∀ p ∈ contraCleanup x, CPairWF p) ∧
      List.Pairwise (fun p q => xkeyEqB (cpairKey p) (cpairKey q) = false) (contraCleanup x) := by
  unfold contraCleanup
  split
  · rename_i items
    have h := contraFold_inv items ([], []) rfl (by simp) (by simp)
    refine ⟨h.2.1, ?_⟩
    have hp := h.2.2
    rw [h.1] at hp
    exact (List.pairwise_map).1 hp
  · simp

/-- C6: every contradiction entry `synthesize` returns has a truthy,
distinct (by Python `==`) paper pair, and the returned list carries no two
entries with the same dedup key (truncated claim texts plus sorted paper
pair): duplicates are collapsed. -/
theorem c6_contradiction_invariants (analyses : List Analysis)
    (behCon behX : Option GenBehavior) (r : SynthResult)
    (h : synthesize analyses behCon behX = Except.ok r) :
    (∀ p ∈ r.contradictions, pyEq p.paper_a p.paper_b = false ∧
        pyTruthy p.paper_a = true ∧ pyTruthy p.paper_b = true) ∧
      List.Pairwise (fun p q => xkeyEqB (cpairKey p) (cpairKey q) = false)
        r.contradictions := by
  unfold synthesize at h
  rcases hbp : buildPool analyses with e | pool
  · rw [hbp] at h
    exact absurd h (by simp)
  · rw [hbp] at h
    dsimp only at h
    rw [Except.ok.injEq] at h
    subst h
    dsimp only
    have h := contraCleanup_inv
      (match callGeminiJson behX with
        | none => J.arr (((heuristicSynthesis 2 false pool).2).map chToJ)
        | some j => j)
    exact ⟨fun p hp => ⟨(h.1 p hp).1, (h.1 p hp).2.1, (h.1 p hp).2.2.1⟩, h.2⟩

/-- Witness for `c6_contradiction_invariants` on a model-supplied
contradiction payload with two distinct papers. -/
theorem c6_contradiction_invariants_witness :
    (∀ p ∈ [(⟨J.str "x", J.str "A", J.str "y", J.str "B"⟩ : CPair)],
        pyEq p.paper_a p.paper_b = false ∧
        pyTruthy p.paper_a = true ∧ pyTruthy p.paper_b = true) ∧
      List.Pairwise (fun p q => xkeyEqB (cpairKey p) (cpairKey q) = false)
        [(⟨J.str "x", J.str "A", J.str "y", J.str "B"⟩ : CPair)] :=
  c6_contradiction_invariants [] none
    (some (.ret "[\x7b\"claim_a\": \"x\", \"paper_a\": \"A\", \"claim_b\": \"y\", \"paper_b\": \"B\"\x7d]"))
    ⟨0, 0, 1, [], [⟨J.str "x", J.str "A", J.str "y", J.str "B"⟩]⟩ rfl

theorem char_toNat_inj (x y : Char) (h : x.toNat = y.toNat) : x = y := by
  apply Char.eq_of_val_eq
  exact UInt32.ext h

theorem charsCmp_eq_iff (a b : List Char) : charsCmp a b = .eq ↔ a = b := by
  induction a generalizing b with
  | nil => cases b <;> simp [charsCmp]
  | cons x xs ih =>
    cases b with
    | nil => simp [charsCmp]
    | cons y ys =>
      rw [charsCmp]
      split
      · rename_i h
        constructor
        · intro hc; cases hc
        · intro hc
          rw [List.cons.injEq] at hc
          rw [hc.1] at h; omega
      · split
        · rename_i h2
          constructor
          · intro hc; cases hc
          · intro hc
            rw [List.cons.injEq] at hc
            rw [hc.1] at h2; omega
        · rename_i h h2
          have hxy : x = y := char_toNat_inj x y (by omega)
          rw [ih, hxy]
          simp

theorem charsCmp_swap (a b : List Char) : charsCmp a b = .lt ↔ charsCmp b a = .gt := by
  induction a generalizing b with
  | nil => cases b <;> simp [charsCmp]
  | cons x xs ih =>
    cases b with
    | nil => simp [charsCmp]
    | cons y ys =>
      rw [charsCmp, charsCmp]
      by_cases h1 : x.toNat < y.toNat
      · rw [if_pos h1, if_neg (by omega), if_pos h1]
        simp
      · rw [if_neg h1]
        by_cases h2 : y.toNat < x.toNat
        · rw [if_pos h2, if_pos h2]
          simp
        · rw [if_neg h2, if_neg h1, if_neg h2]
          exact ih ys

theorem charsCmp_lt_trans (a b c : List Char) (h1 : charsCmp a b = .lt)
    (h2 : charsCmp b c = .lt) : charsCmp a c = .lt := by
  induction a generalizing b c with
  | nil =>
    cases c with
    | nil =>
      cases b with
      | nil => cases h1
      | cons y ys => cases h2
    | cons z zs => rw [charsCmp]
  | cons x xs ih =>
    cases b with
    | nil => cases h1
    | cons y ys =>
      cases c with
      | nil => cases h2
      | cons z zs =>
        rw [charsCmp] at h1 h2 ⊢
        by_cases hxy : x.toNat < y.toNat
        · by_cases hyz : y.toNat < z.toNat
          · rw [if_pos (by omega)]
          · rw [if_neg hyz] at h2
            by_cases hzy : z.toNat < y.toNat
            · rw [if_pos hzy] at h2; cases h2
            · have : y.toNat = z.toNat := by omega
              rw [if_pos (by omega)]
        · rw [if_neg hxy] at h1
          by_cases hyx : y.toNat < x.toNat
          · rw [if_pos hyx] at h1; cases h1
          · rw [if_neg hyx] at h1
            have hxy2 : x.toNat = y.toNat := by omega
            by_cases hyz : y.toNat < z.toNat
            · rw [if_pos (by omega)]
            · rw [if_neg hyz] at h2
              by_cases hzy : z.toNat < y.toNat
              · rw [if_pos hzy] at h2; cases h2
              · rw [if_neg hzy] at h2
                rw [if_neg (by omega), if_neg (by omega)]
                exact ih ys zs h1 h2

/-! ## Claim C7 groundwork: Python comparison facts on hashable values -/

theorem ordQ_lt (q r : ℚ) :
    ((if q < r then Ordering.lt else if r < q then Ordering.gt else Ordering.eq) =
        Ordering.lt) ↔ q < r := by
  split_ifs with h1 h2 <;> simp [h1]

theorem ordQ_not_lt (q r : ℚ) (hf : ¬ (if q < r then Ordering.lt else if r < q then
    Ordering.gt else Ordering.eq) = Ordering.lt) (hne : ¬ q = r) : r < q := by
  rw [ordQ_lt] at hf
  rcases lt_trichotomy q r with h | h | h
  · exact absurd h hf
  · exact absurd h hne
  · exact h

theorem pyEq_symm_hash (a b : J) (ha : jHashable a = true) : pyEq a b = pyEq b a := by
  cases a <;> cases b <;> simp_all [pyEq, jAsNum, jHashable, eq_comm]

theorem string_ext (x y : String) (h : x.data = y.data) : x = y := by
  cases x; cases y; exact congrArg String.mk h

theorem charsCmp_total (x y : String) (hf : ¬ charsCmp x.data y.data = Ordering.lt)
    (hne : ¬ x = y) : charsCmp y.data x.data = Ordering.lt := by
  rcases hcmp : charsCmp x.data y.data with _ | _ | _
  · exact absurd hcmp hf
  · exact absurd (string_ext x y ((charsCmp_eq_iff x.data y.data).1 hcmp)) hne
  · exact (charsCmp_swap y.data x.data).2 hcmp

theorem pyLt_total (a b : J) (ha : jHashable a = true) (hb : jHashable b = true)
    (hf : pyLt a b = some false) (hne : pyEq a b = false) : pyLt b a = some true := by
  cases a <;> cases b <;>
    simp_all [pyLt, pyCmp, pyEq, jAsNum, jHashable, strCmp, ordQ_lt] <;>
    first
    | exact lt_of_le_of_ne hf (fun h => hne h.symm)
    | exact charsCmp_total _ _ hf hne

theorem pyLt_trans (a b c : J) (ha : jHashable a = true) (hc : jHashable c = true)
    (h1 : pyLt a b = some true) (h2 : pyLt b c = some true) : pyLt a c = some true := by
  cases a <;> cases b <;> cases c <;>
    simp_all [pyLt, pyCmp, pyEq, jAsNum, jHashable, strCmp, ordQ_lt] <;>
    first
    | exact lt_trans h1 h2
    | exact charsCmp_lt_trans _ _ _ h1 h2

/-! ## Claim C7 groundwork: dedup and sort fixed points -/

theorem pyFromKeysF_id (n : Nat) (xs : List J) (hn : xs.length ≤ n)
    (hh : ∀ x ∈ xs, jHashable x = true)
    (hp : List.Pairwise (fun a b => pyEq a b = false) xs) :
    pyFromKeysF n xs = some xs := by
  induction n generalizing xs with
  | zero =>
    cases xs with
    | nil => rfl
    | cons x xs => simp at hn
  | succ n ih =>
    cases xs with
    | nil => rfl
    | cons x xs =>
      rw [pyFromKeysF]
      rw [if_pos (hh x (by simp))]
      have hfilter : xs.filter (fun y => ¬ pyEq x y) = xs := by
        apply List.filter_eq_self.2
        intro y hy
        have := (List.pairwise_cons.1 hp).1 y hy
        simp [this]
      rw [hfilter,
        ih xs (by simpa using hn) (fun y hy => hh y (List.mem_cons_of_mem _ hy))
          (List.pairwise_cons.1 hp).2]

theorem pyFromKeysF_facts (n : Nat) (xs ys : List J) (h : pyFromKeysF n xs = some ys) :
    (∀ y ∈ ys, jHashable y = true) ∧
      List.Pairwise (fun a b => pyEq a b = false) ys ∧ ys ⊆ xs := by
  induction n generalizing xs ys with
  | zero =>
    cases xs with
    | nil =>
      rw [pyFromKeysF] at h
      rw [Option.some.injEq] at h
      subst h
      simp
    | cons x xs => cases h
  | succ n ih =>
    cases xs with
    | nil =>
      rw [pyFromKeysF] at h
      rw [Option.some.injEq] at h
      subst h
      simp
    | cons x xs =>
      rw [pyFromKeysF] at h
      by_cases hx : jHashable x = true
      · rw [if_pos hx] at h
        rcases hrec : pyFromKeysF n (xs.filter (fun y => ¬ pyEq x y)) with _ | zs
        · rw [hrec] at h; cases h
        · rw [hrec] at h
          rw [Option.some.injEq] at h
          subst h
          have hf := ih _ _ hrec
          refine ⟨?_, ?_, ?_⟩
          · intro y hy
            rcases List.mem_cons.1 hy with hy | hy
            · subst hy; exact hx
            · exact hf.1 y hy
          · rw [List.pairwise_cons]
            refine ⟨?_, hf.2.1⟩
            intro z hz
            have hzf := hf.2.2 hz
            have := List.of_mem_filter hzf
            simpa using this
          · intro z hz
            rcases List.mem_cons.1 hz with hz | hz
            · subst hz; simp
            · exact List.mem_cons_of_mem _ (List.mem_of_mem_filter (hf.2.2 hz))
      · rw [if_neg hx] at h; cases h

theorem pyInsertSorted_perm (x : J) (ys zs : List J) (h : pyInsertSorted x ys = some zs) :
    zs.Perm (x :: ys) := by
  induction ys generalizing zs with
  | nil =>
    rw [pyInsertSorted] at h
    rw [Option.some.injEq] at h
    subst h
    exact List.Perm.refl _
  | cons y ys ih =>
    rw [pyInsertSorted] at h
    rcases hxy : pyLt x y with _ | b
    · rw [hxy] at h; cases h
    · rw [hxy] at h
      cases b with
      | true =>
        rw [Option.some.injEq] at h
        subst h
        exact List.Perm.refl _
      | false =>
        rcases hrec : pyInsertSorted x ys with _ | ws
        · rw [hrec] at h; cases h
        · rw [hrec] at h
          rw [Option.some.injEq] at h
          subst h
          exact ((ih ws hrec).cons y).trans (List.Perm.swap x y ys)

theorem pySorted_perm (xs ys : List J) (h : pySorted xs = some ys) : ys.Perm xs := by
  induction xs generalizing ys with
  | nil =>
    rw [pySorted] at h
    rw [Option.some.injEq] at h
    subst h
    exact List.Perm.refl _
  | cons x xs ih =>
    rw [pySorted] at h
    rcases hrec : pySorted xs with _ | ws
    · rw [hrec] at h; cases h
    · rw [hrec] at h
      exact (pyInsertSorted_perm x ws ys h).trans ((ih ws hrec).cons x)

theorem pyInsertSorted_sorted (x : J) (ys zs : List J)
    (hx : jHashable x = true) (hys : ∀ y ∈ ys, jHashable y = true)
    (hne : ∀ y ∈ ys, pyEq x y = false)
    (hs : List.Pairwise (fun a b => pyLt a b = some true) ys)
    (h : pyInsertSorted x ys = some zs) :
    List.Pairwise (fun a b => pyLt a b = some true) zs := by
  induction ys generalizing zs with
  | nil =>
    rw [pyInsertSorted] at h
    rw [Option.some.injEq] at h
    subst h
    simp
  | cons y ys ih =>
    rw [pyInsertSorted] at h
    rcases hxy : pyLt x y with _ | b
    · rw [hxy] at h; cases h
    · rw [hxy] at h
      cases b with
      | true =>
        rw [Option.some.injEq] at h
        subst h
        rw [List.pairwise_cons]
        refine ⟨?_, hs⟩
        intro z hz
        rcases List.mem_cons.1 hz with hz | hz
        · subst hz; exact hxy
        · exact pyLt_trans x y z hx (hys z (List.mem_cons_of_mem _ hz)) hxy
            ((List.pairwise_cons.1 hs).1 z hz)
      | false =>
        rcases hrec : pyInsertSorted x ys with _ | ws
        · rw [hrec] at h; cases h
        · rw [hrec] at h
          rw [Option.some.injEq] at h
          subst h
          rw [List.pairwise_cons]
          refine ⟨?_, ih ws (fun z hz => hys z (List.mem_cons_of_mem _ hz))
            (fun z hz => hne z (List.mem_cons_of_mem _ hz))
            (List.pairwise_cons.1 hs).2 hrec⟩
          intro w hw
          have hw2 := (pyInsertSorted_perm x ys ws hrec).mem_iff.1 hw
          rcases List.mem_cons.1 hw2 with hw2 | hw2
          · rw [hw2]
            exact pyLt_total x y hx (hys y (by simp)) hxy (hne y (by simp))
          · exact (List.pairwise_cons.1 hs).1 w hw2

theorem pySorted_sorted (xs ys : List J)
    (hh : ∀ x ∈ xs, jHashable x = true)
    (hp : List.Pairwise (fun a b => pyEq a b = false) xs)
    (h : pySorted xs = some ys) :
    List.Pairwise (fun a b => pyLt a b = some true) ys := by
  induction xs generalizing ys with
  | nil =>
    rw [pySorted] at h
    rw [Option.some.injEq] at h
    subst h
    simp
  | cons x xs ih =>
    rw [pySorted] at h
    rcases hrec : pySorted xs with _ | ws
    · rw [hrec] at h; cases h
    · rw [hrec] at h
      have hperm := pySorted_perm xs ws hrec
      refine pyInsertSorted_sorted x ws ys (hh x (by simp))
        (fun w hw => hh w (List.mem_cons_of_mem _ (hperm.mem_iff.1 hw)))
        (fun w hw => (List.pairwise_cons.1 hp).1 w (hperm.mem_iff.1 hw))
        (ih ws (fun w hw => hh w (List.mem_cons_of_mem _ hw)) (List.pairwise_cons.1 hp).2 hrec)
        h

theorem pySorted_id (xs : List J)
    (hs : List.Pairwise (fun a b => pyLt a b = some true) xs) :
    pySorted xs = some xs := by
  induction xs with
  | nil => rfl
  | cons x xs ih =>
    rw [pySorted, ih (List.pairwise_cons.1 hs).2]
    dsimp only
    cases xs with
    | nil => rfl
    | cons y ys =>
      rw [pyInsertSorted, (List.pairwise_cons.1 hs).1 y (by simp)]

theorem sortedUniq_fixed (xs uniq up : List J) (hfk : pyFromKeys xs = some uniq)
    (h : pySorted uniq = some up) : pyFromKeys up = some up ∧ pySorted up = some up := by
  have hfacts := pyFromKeysF_facts xs.length xs uniq hfk
  have hperm := pySorted_perm uniq up h
  have hhup : ∀ y ∈ up, jHashable y = true := fun y hy => hfacts.1 y (hperm.mem_iff.1 hy)
  have hpw2 : List.Pairwise (fun a b => pyEq a b = false ∧ pyEq b a = false) uniq := by
    refine List.Pairwise.imp_of_mem (fun ha hb hr => ⟨hr, ?_⟩) hfacts.2.1
    rw [← pyEq_symm_hash _ _ (hfacts.1 _ ha)]
    exact hr
  have hpw3 : List.Pairwise (fun a b => pyEq a b = false ∧ pyEq b a = false) up :=
    (hperm.pairwise_iff (fun hab => ⟨hab.2, hab.1⟩)).2 hpw2
  have hpwup : List.Pairwise (fun a b => pyEq a b = false) up :=
    hpw3.imp (fun hab => hab.1)
  constructor
  · show pyFromKeysF up.length up = some up
    exact pyFromKeysF_id up.length up (le_refl _) hhup hpwup
  · exact pySorted_id up (pySorted_sorted uniq up hfacts.1 hfacts.2.1 h)

theorem consItemPapers_nil_aux (up : List J) (h : some ([] : List J) = some up) :
    pyFromKeys up = some up ∧ pySorted up = some up := by
  rw [Option.some.injEq] at h
  subst h
  exact ⟨rfl, rfl⟩

theorem consItemPapers_fixed (item : J) (up : List J) (h : consItemPapers item = some up) :
    pyFromKeys up = some up ∧ pySorted up = some up := by
  cases item with
  | obj kvs =>
    unfold consItemPapers at h
    dsimp only at h
    rcases hit : jIter (jGetD (J.obj kvs) "papers" (J.arr [])) with _ | xs
    · rw [hit] at h; cases h
    · rw [hit] at h
      dsimp only at h
      rcases hfk : pyFromKeys xs with _ | uniq
      · rw [hfk] at h; cases h
      · rw [hfk] at h
        exact sortedUniq_fixed xs uniq up hfk h
  | null => exact consItemPapers_nil_aux up h
  | bool b => exact consItemPapers_nil_aux up h
  | num q => exact consItemPapers_nil_aux up h
  | str s2 => exact consItemPapers_nil_aux up h
  | arr xs => exact consItemPapers_nil_aux up h

theorem round3_idem (x : ℚ) : round3 (round3 x) = round3 x := by
  unfold round3
  generalize halfEvenZ (qMul x (mkRat 1000 1)) = m
  rw [qMul_eq, mkRat_eq_div', mkRat_eq_div', mkRat_eq_div']
  have h : ((m : ℚ) / ((1000 : ℕ) : ℚ)) * (((1000 : ℤ) : ℚ) / ((1 : ℕ) : ℚ)) = (m : ℚ) := by
    push_cast
    field_simp
  rw [h, halfEvenZ_intCast]

/-! ## Claim C7: consensus-cleanup invariants (first pass) -/

theorem consRawText_cconToJ (e : CCon) : consRawText (cconToJ e) = some e.text := rfl

theorem consAvgOf_cconToJ (e : CCon) : consAvgOf (cconToJ e) = some e.average_confidence := rfl

theorem consItemPapers_cconToJ (e : CCon) (h1 : pyFromKeys e.papers = some e.papers)
    (h2 : pySorted e.papers = some e.papers) : consItemPapers (cconToJ e) = some e.papers := by
  show (match pyFromKeys e.papers with
    | none => none
    | some uniq => pySorted uniq) = some e.papers
  rw [h1]
  exact h2

theorem mergeFirst_facts (pcm : List (String × List ℚ)) (up : List J) (nk : String)
    (raw : String) (item : J) (hr : normConsKey raw = nk) :
    ∀ es : List CCon, (∀ e ∈ es, CConWF e) →
      ((mergeFirst pcm up nk raw item es).map cconKey = es.map cconKey ∧
        ∀ e ∈ mergeFirst pcm up nk raw item es, CConWF e) := by
  intro es
  induction es with
  | nil => intro h; exact ⟨rfl, h⟩
  | cons e es ih =>
    intro h
    rw [mergeFirst]
    split
    · rename_i hcond
      rw [Bool.and_eq_true] at hcond
      have hkey : normConsKey e.text = nk := by simpa using hcond.2
      constructor
      · rw [List.map_cons, List.map_cons]
        congr 1
        show (normConsKey (if e.text.length < raw.length then raw else e.text),
          e.papers) = (normConsKey e.text, e.papers)
        by_cases hlt : e.text.length < raw.length
        · rw [if_pos hlt, hr, hkey]
        · rw [if_neg hlt]
      · intro x hx
        rcases List.mem_cons.1 hx with hx | hx
        · rw [hx]
          have hwfe := h e (by simp)
          exact ⟨hwfe.1, hwfe.2.1, hwfe.2.2.1, round3_idem _⟩
        · exact h x (List.mem_cons_of_mem _ hx)
    · have hrec := ih (fun x hx => h x (List.mem_cons_of_mem _ hx))
      constructor
      · rw [List.map_cons, List.map_cons, hrec.1]
      · intro x hx
        rcases List.mem_cons.1 hx with hx | hx
        · rw [hx]; exact h e (by simp)
        · exact hrec.2 x hx

theorem consStep_inv (pcm : List (String × List ℚ)) (st : List CCon × List CKey) (item : J)
    (h1 : st.2 = st.1.map cconKey)
    (h2 : ∀ e ∈ st.1, CConWF e)
    (h3 : List.Pairwise (fun k1 k2 => ckeyEqB k1 k2 = false) st.2) :
    ((consStep pcm st item).2 = (consStep pcm st item).1.map cconKey ∧
      (∀ e ∈ (consStep pcm st item).1, CConWF e) ∧
      List.Pairwise (fun k1 k2 => ckeyEqB k1 k2 = false) (consStep pcm st item).2) := by
  unfold consStep
  dsimp only
  split
  · exact ⟨h1, h2, h3⟩
  · rename_i up hup
    split
    · exact ⟨h1, h2, h3⟩
    · rename_i hlen
      split
      · exact ⟨h1, h2, h3⟩
      · rename_i raw hraw
        split
        · rename_i hmem
          have hmf := mergeFirst_facts pcm up (normConsKey raw) raw item rfl st.1 h2
          refine ⟨?_, hmf.2, h3⟩
          dsimp only
          rw [hmf.1, h1]
        · rename_i hmem
          rw [Bool.not_eq_true] at hmem
          have hfix := consItemPapers_fixed item up hup
          refine ⟨?_, ?_, ?_⟩
          · dsimp only
            rw [List.map_append, h1]
            rfl
          · intro x hx
            rcases List.mem_append.1 hx with hx | hx
            · exact h2 x hx
            · rw [List.mem_singleton] at hx
              rw [hx]
              exact ⟨hfix.1, hfix.2, show 2 ≤ up.length by omega, round3_idem _⟩
          · dsimp only
            rw [List.pairwise_append]
            refine ⟨h3, List.pairwise_singleton _ _, ?_⟩
            intro k hk k2 hk2
            rw [List.mem_singleton] at hk2
            rw [hk2]
            simp only [ckeyMem, List.any_eq_false, Bool.not_eq_true] at hmem
            exact hmem k hk

theorem consFold_inv (pcm : List (String × List ℚ)) (items : List J) :
    ∀ st : List CCon × List CKey,
      st.2 = st.1.map cconKey →
      (∀ e ∈ st.1, CConWF e) →
      List.Pairwise (fun k1 k2 => ckeyEqB k1 k2 = false) st.2 →
      ((items.foldl (consStep pcm) st).2 = (items.foldl (consStep pcm) st).1.map cconKey ∧
        (∀ e ∈ (items.foldl (consStep pcm) st).1, CConWF e) ∧
        List.Pairwise (fun k1 k2 => ckeyEqB k1 k2 = false)
          (items.foldl (consStep pcm) st).2) := by
  induction items with
  | nil => exact fun st h1 h2 h3 => ⟨h1, h2, h3⟩
  | cons item items ih =>
    intro st h1 h2 h3
    rw [List.foldl_cons]
    have h := consStep_inv pcm st item h1 h2 h3
    exact ih (consStep pcm st item) h.1 h.2.1 h.2.2

theorem consensusCleanup_inv (pcm : List (String × List ℚ)) (c : J) :
    (∀ e ∈ consensusCleanup pcm c, CConWF e) ∧
      List.Pairwise (fun e1 e2 => ckeyEqB (cconKey e1) (cconKey e2) = false)
        (consensusCleanup pcm c) := by
  unfold consensusCleanup
  split
  · rename_i items
    have h := consFold_inv pcm items ([], []) rfl (by simp) (by simp)
    refine ⟨h.2.1, ?_⟩
    have hp := h.2.2
    rw [h.1] at hp
    exact (List.pairwise_map).1 hp
  · simp

/-! ## Claim C7: the cleanup on its own output -/

theorem consStep_pass2 (pcm : List (String × List ℚ)) (e : CCon) (acc : List CCon)
    (seen : List CKey) (hw : CConWF e)
    (hmem : ckeyMem seen (cconKey e) = false)
    (havg : e.average_confidence = mkRat 1 2 → round3 (pcmMean pcm e.papers) = mkRat 1 2) :
    consStep pcm (acc, seen) (cconToJ e) = (acc ++ [e], seen ++ [cconKey e]) := by
  unfold consStep
  dsimp only
  rw [consItemPapers_cconToJ e hw.1 hw.2.1]
  dsimp only
  rw [if_neg (show ¬ e.papers.length < 2 by
    have := hw.2.2.1
    omega)]
  rw [consRawText_cconToJ e]
  dsimp only
  have hmem2 : ckeyMem seen (normConsKey e.text, e.papers) = false := hmem
  rw [if_neg (by simp [hmem2])]
  rw [consAvgOf_cconToJ e]
  dsimp only
  by_cases hq : e.average_confidence = mkRat 1 2
  · rw [if_pos hq]
    have hv : round3 (consStep.pcmMeanOr pcm e.papers) = e.average_confidence := by
      rw [show consStep.pcmMeanOr pcm e.papers = pcmMean pcm e.papers from rfl]
      rw [havg hq, hq]
    rw [hv]
    rfl
  · rw [if_neg hq]
    rw [hw.2.2.2]
    rfl

theorem consFold_pass2 (pcm : List (String × List ℚ)) (es : List CCon) :
    ∀ (acc : List CCon) (seen : List CKey),
      List.Pairwise (fun k1 k2 => ckeyEqB k1 k2 = false) (seen ++ es.map cconKey) →
      (∀ e ∈ es, CConWF e) →
      (∀ e ∈ es, e.average_confidence = mkRat 1 2 →
        round3 (pcmMean pcm e.papers) = mkRat 1 2) →
      (es.map cconToJ).foldl (consStep pcm) (acc, seen) =
        (acc ++ es, seen ++ es.map cconKey) := by
  induction es with
  | nil => intro acc seen _ _ _; simp
  | cons e es ih =>
    intro acc seen hpw hwf havg
    rw [List.map_cons, List.foldl_cons]
    have hmem : ckeyMem seen (cconKey e) = false := by
      rw [List.pairwise_append] at hpw
      simp only [ckeyMem, List.any_eq_false, Bool.not_eq_true]
      intro k hk
      exact hpw.2.2 k hk (cconKey e) (by simp)
    rw [consStep_pass2 pcm e acc seen (hwf e (by simp)) hmem (havg e (by simp))]
    rw [ih (acc ++ [e]) (seen ++ [cconKey e])
      (by simpa [List.append_assoc] using hpw)
      (fun x hx => hwf x (by simp [hx]))
      (fun x hx => havg x (by simp [hx]))]
    simp

theorem consensusCleanup_idem (pcm : List (String × List ℚ)) (c : J)
    (havg : ∀ e ∈ consensusCleanup pcm c, e.average_confidence = mkRat 1 2 →
      round3 (pcmMean pcm e.papers) = mkRat 1 2) :
    consensusCleanup pcm (J.arr ((consensusCleanup pcm c).map cconToJ)) =
      consensusCleanup pcm c := by
  have h := consensusCleanup_inv pcm c
  conv_lhs => rw [consensusCleanup]
  rw [consFold_pass2 pcm (consensusCleanup pcm c) [] []
    (by simpa [List.pairwise_map] using h.2) h.1 havg]
  simp

theorem look_pa (ca pa cb pb : J) :
    jGetD (J.obj [("claim_a", ca), ("paper_a", pa), ("claim_b", cb), ("paper_b", pb)])
      "paper_a" J.null = pa := rfl

theorem look_pb (ca pa cb pb : J) :
    jGetD (J.obj [("claim_a", ca), ("paper_a", pa), ("claim_b", cb), ("paper_b", pb)])
      "paper_b" J.null = pb := rfl

theorem look_ca (ca pa cb pb : J) :
    jGetD (J.obj [("claim_a", ca), ("paper_a", pa), ("claim_b", cb), ("paper_b", pb)])
      "claim_a" J.null = ca := rfl

theorem look_cb (ca pa cb pb : J) :
    jGetD (J.obj [("claim_a", ca), ("paper_a", pa), ("claim_b", cb), ("paper_b", pb)])
      "claim_b" J.null = cb := rfl

theorem contraStep_pass2 (p : CPair) (acc : List CPair) (seen : List XKey)
    (hw : CPairWF p) (hmem : xkeyMem seen (cpairKey p) = false) :
    contraStep (acc, seen) (cpairToJ p) = (acc ++ [p], seen ++ [cpairKey p]) := by
  rcases p with ⟨ca, pa, cb, pb⟩
  obtain ⟨h1, h2, h3, h4, h5, h6⟩ := hw
  dsimp only at h1 h2 h3 h4 h5 h6
  rcases hsp : pySorted [pa, pb] with _ | sp
  · rw [hsp] at h4; cases h4
  · have hk : cpairKey ⟨ca, pa, cb, pb⟩ =
        (takeChars 120 (pyStr ca), takeChars 120 (pyStr cb), sp) := by
      simp [cpairKey, hsp]
    rw [hk] at hmem
    unfold contraStep
    dsimp only [cpairToJ]
    rw [look_pa, look_pb, look_ca, look_cb]
    rw [if_neg (by simp [h1, h2, h3])]
    rw [hsp]
    dsimp only
    rw [if_neg (show ¬¬(jHashable pa = true ∧ jHashable pb = true) by simp [h5, h6])]
    rw [if_neg (by simp [hmem])]
    rw [hk]

theorem contraFold_pass2 (ps : List CPair) :
    ∀ (acc : List CPair) (seen : List XKey),
      List.Pairwise (fun k1 k2 => xkeyEqB k1 k2 = false) (seen ++ ps.map cpairKey) →
      (∀ p ∈ ps, CPairWF p) →
      (ps.map cpairToJ).foldl contraStep (acc, seen) =
        (acc ++ ps, seen ++ ps.map cpairKey) := by
  induction ps with
  | nil => intro acc seen _ _; simp
  | cons p ps ih =>
    intro acc seen hpw hwf
    rw [List.map_cons, List.foldl_cons]
    have hmem : xkeyMem seen (cpairKey p) = false := by
      rw [List.pairwise_append] at hpw
      simp only [xkeyMem, List.any_eq_false, Bool.not_eq_true]
      intro k hk
      exact hpw.2.2 k hk (cpairKey p) (by simp)
    rw [contraStep_pass2 p acc seen (hwf p (by simp)) hmem]
    rw [ih (acc ++ [p]) (seen ++ [cpairKey p])
      (by simpa [List.append_assoc] using hpw)
      (fun x hx => hwf x (by simp [hx]))]
    simp

theorem contraCleanup_idem (x : J) :
    contraCleanup (J.arr ((contraCleanup x).map cpairToJ)) = contraCleanup x := by
  have h := contraCleanup_inv x
  conv_lhs => rw [contraCleanup]
  rw [contraFold_pass2 (contraCleanup x) [] []
    (by simpa [List.pairwise_map] using h.2) h.1]
  simp

/-- Counterexample to claim C7: the defensive cleanup is not idempotent.  A
consensus entry whose supplied average rounds to exactly 0.5 is stored as 0.5
by the first pass; the second pass mistakes the stored value for the 0.5
placeholder and recomputes it from the pooled per-paper confidences (here
0.75), so the second pass changes the list. -/
theorem c7_cleanup_idempotence_counterexample :
    consensusCleanup [("A", [mkRat 8 10]), ("B", [mkRat 7 10])]
        (J.arr [cconToJ ⟨"t", [J.str "A", J.str "B"], mkRat 4999 10000⟩]) =
      [⟨"t", [J.str "A", J.str "B"], mkRat 1 2⟩] ∧
    consensusCleanup [("A", [mkRat 8 10]), ("B", [mkRat 7 10])]
        (J.arr ((consensusCleanup [("A", [mkRat 8 10]), ("B", [mkRat 7 10])]
          (J.arr [cconToJ ⟨"t", [J.str "A", J.str "B"], mkRat 4999 10000⟩])).map cconToJ)) =
      [⟨"t", [J.str "A", J.str "B"], mkRat 3 4⟩] ∧
    ¬ consensusCleanup [("A", [mkRat 8 10]), ("B", [mkRat 7 10])]
        (J.arr ((consensusCleanup [("A", [mkRat 8 10]), ("B", [mkRat 7 10])]
          (J.arr [cconToJ ⟨"t", [J.str "A", J.str "B"], mkRat 4999 10000⟩])).map cconToJ)) =
      consensusCleanup [("A", [mkRat 8 10]), ("B", [mkRat 7 10])]
        (J.arr [cconToJ ⟨"t", [J.str "A", J.str "B"], mkRat 4999 10000⟩]) := by
  have h1 : consensusCleanup [("A", [mkRat 8 10]), ("B", [mkRat 7 10])]
      (J.arr [cconToJ ⟨"t", [J.str "A", J.str "B"], mkRat 4999 10000⟩]) =
      [⟨"t", [J.str "A", J.str "B"], mkRat 1 2⟩] := rfl
  have h2 : consensusCleanup [("A", [mkRat 8 10]), ("B", [mkRat 7 10])]
      (J.arr ((consensusCleanup [("A", [mkRat 8 10]), ("B", [mkRat 7 10])]
        (J.arr [cconToJ ⟨"t", [J.str "A", J.str "B"], mkRat 4999 10000⟩])).map cconToJ)) =
      [⟨"t", [J.str "A", J.str "B"], mkRat 3 4⟩] := rfl
  refine ⟨h1, h2, ?_⟩
  intro h
  rw [h2] at h
  rw [h1] at h
  have h3 := congrArg (fun l => (l.headD ⟨"", [], 0⟩).average_confidence) h
  dsimp at h3
  exact absurd h3 (by decide)

/-- C7 (amended): the contradiction half of the defensive cleanup is
idempotent, and the consensus half is idempotent provided no emitted entry
stores an average of exactly 0.5 whose recomputation from the pooled
per-paper confidences rounds elsewhere (the 0.5-placeholder recompute fires
again on the second pass for such entries). -/
theorem c7_cleanup_idempotence_amended (pcm : List (String × List ℚ)) (c x : J)
    (havg : ∀ e ∈ consensusCleanup pcm c, e.average_confidence = mkRat 1 2 →
      round3 (pcmMean pcm e.papers) = mkRat 1 2) :
    consensusCleanup pcm (J.arr ((consensusCleanup pcm c).map cconToJ)) =
        consensusCleanup pcm c ∧
      contraCleanup (J.arr ((contraCleanup x).map cpairToJ)) = contraCleanup x :=
  ⟨consensusCleanup_idem pcm c havg, contraCleanup_idem x⟩

/-- Witness for `c7_cleanup_idempotence_amended` at a concrete cleanup run
whose stored average (0.8) is not the 0.5 placeholder. -/
theorem c7_cleanup_idempotence_amended_witness :
    (∀ e ∈ consensusCleanup [("A", [mkRat 4 5]), ("B", [mkRat 7 10])]
        (J.arr [cconToJ ⟨"t", [J.str "A", J.str "B"], mkRat 4 5⟩]),
      e.average_confidence = mkRat 1 2 →
        round3 (pcmMean [("A", [mkRat 4 5]), ("B", [mkRat 7 10])] e.papers) = mkRat 1 2) ∧
    (consensusCleanup [("A", [mkRat 4 5]), ("B", [mkRat 7 10])]
        (J.arr ((consensusCleanup [("A", [mkRat 4 5]), ("B", [mkRat 7 10])]
          (J.arr [cconToJ ⟨"t", [J.str "A", J.str "B"], mkRat 4 5⟩])).map cconToJ)) =
      consensusCleanup [("A", [mkRat 4 5]), ("B", [mkRat 7 10])]
        (J.arr [cconToJ ⟨"t", [J.str "A", J.str "B"], mkRat 4 5⟩]) ∧
      contraCleanup (J.arr ((contraCleanup
          (J.arr [cpairToJ ⟨J.str "c1", J.str "A", J.str "c2", J.str "B"⟩])).map cpairToJ)) =
        contraCleanup (J.arr [cpairToJ ⟨J.str "c1", J.str "A", J.str "c2", J.str "B"⟩])) :=
  ⟨by decide, c7_cleanup_idempotence_amended _ _ _ (by decide)⟩

end IRIS
